import Mathlib

/-!
# ARMv7 PMU hardware layer (`met_drv/4.4/mt6775/core/v7_pmu_hw.c`)

A shallow embedding of the driver file `v7_pmu_hw.c` and the properties of its
event catalogue lookup, counter lifecycle (reset / start / stop / poll) and
init entry point.

Conventions of the embedding.

* The headers `cpu_pmu.h`, `v7_pmu_name.h`, `v8_pmu_name.h` and `v6_pmu_hw.h`
  are not part of the sources at hand.  What the driver takes from them
  (`MODE_POLLING`, `MXSIZE_PMU_DESC`, the descriptor tables and their counts,
  the legacy init `v6_cpu_pmu_hw_init`) is a parameter of the definitions.
  The integer fields of `struct met_pmu` and `struct pmu_desc` are natural
  numbers (event codes are unsigned).  The event of a slot is narrower than
  `int`: its comparison with an `int` argument is equality of the values.
  The event of a descriptor is an `unsigned int`: in its comparison with an
  `int` argument the argument is converted to `unsigned int` (`to_u32`).
* An array the driver only reads (`pmu`, `chip->desc`) is a list; reading
  outside it, or through the null `chip` pointer, makes the result `none`.
  An array the driver writes (`event_desc`, `pmu_value`) is the memory cell
  function `offset ↦ content`, so which cells change is part of the result.
* A `for (i = 0; i < n; i++)` loop is a function of the number of iterations
  left and the current index `i`; it is total by construction.
* The coprocessor is a record of the PMU registers together with the trace of
  all `mrc` / `mcr` / `isb` instructions executed so far.  The counter
  selection register holds the index written to it; index 31 is the cycle
  counter, which the driver reads through its own register.
* An `int` is an integer; `count - 1` is the integer difference (the overflow
  at `count = INT_MIN` is outside the model), and a loop index stays within
  `int` for every array that fits in memory.
-/

namespace V7Pmu

/-! ## Data model -/

/-- The fields of `struct met_pmu` (cpu_pmu.h) that the driver reads: the mode of
a slot and the event code requested for it. -/
structure met_pmu where
  mode : Nat
  event : Nat
deriving DecidableEq

/-- The type `struct pmu_desc` (cpu_pmu.h): an event code, an `unsigned int` (a value
below 2^32), and its name.  `name` lists
the characters of the name array; as a C string it ends at its first NUL, or
at the end of the list. -/
structure pmu_desc where
  event : Nat
  name : List Char
deriving DecidableEq

/-- The type `struct chip_pmu`.  `desc` is the array the pointer refers to (the empty
list for a null pointer), `count` the number of entries the driver scans. -/
structure chip_pmu where
  type : Nat
  desc : List pmu_desc
  count : Nat
  cpu_name : String
deriving DecidableEq

/-- The descriptor tables and their sizes, declared in `v7_pmu_name.h` and
`v8_pmu_name.h`. -/
structure pmu_name_tables where
  a7_pmu_desc : List pmu_desc
  A7_PMU_DESC_COUNT : Nat
  a9_pmu_desc : List pmu_desc
  A9_PMU_DESC_COUNT : Nat
  a53_pmu_desc : List pmu_desc
  A53_PMU_DESC_COUNT : Nat

def ARMV7_PMCR_E : Nat := 1 <<< 0
def ARMV7_PMCR_P : Nat := 1 <<< 1
def ARMV7_PMCR_C : Nat := 1 <<< 2
def ARMV7_PMCR_D : Nat := 1 <<< 3
def ARMV7_PMCR_X : Nat := 1 <<< 4
def ARMV7_PMCR_DP : Nat := 1 <<< 5
def ARMV7_PMCR_N_SHIFT : Nat := 11
def ARMV7_PMCR_N_MASK : Nat := 0x1f
def ARMV7_PMCR_MASK : Nat := 0x3f

def CORTEX_A7 : Nat := 0xC07
def CORTEX_A9 : Nat := 0xC09
def CORTEX_A12 : Nat := 0xC0D
def CORTEX_A15 : Nat := 0xC0F
def CORTEX_A17 : Nat := 0xC0E
def CORTEX_A53 : Nat := 0xD03
def CORTEX_A57 : Nat := 0xD07
def CHIP_UNKNOWN : Nat := 0xFFF

/-- The static table `chips[]`. -/
def chips (T : pmu_name_tables) : List chip_pmu :=
  [ ⟨CORTEX_A7, T.a7_pmu_desc, T.A7_PMU_DESC_COUNT, "Cortex-A7"⟩,
    ⟨CORTEX_A9, T.a9_pmu_desc, T.A9_PMU_DESC_COUNT, "Cortex-A9"⟩,
    ⟨CORTEX_A12, T.a7_pmu_desc, T.A7_PMU_DESC_COUNT, "Cortex-A12"⟩,
    ⟨CORTEX_A15, T.a7_pmu_desc, T.A7_PMU_DESC_COUNT, "Cortex-A15"⟩,
    ⟨CORTEX_A17, T.a7_pmu_desc, T.A7_PMU_DESC_COUNT, "Cortex-A17"⟩,
    ⟨CORTEX_A53, T.a53_pmu_desc, T.A53_PMU_DESC_COUNT, "Cortex-A53"⟩,
    ⟨CORTEX_A57, T.a7_pmu_desc, T.A7_PMU_DESC_COUNT, "Cortex-A57"⟩ ]

/-- The sentinel `chip_unknown`: no descriptor array, count 0. -/
def chip_unknown : chip_pmu := ⟨CHIP_UNKNOWN, [], 0, "Unknown CPU"⟩

/-- The size `CHIP_PMU_COUNT`, `sizeof(chips) / sizeof(struct chip_pmu)`. -/
def CHIP_PMU_COUNT (T : pmu_name_tables) : Nat := (chips T).length

/-! ## Coprocessor registers -/

/-- The cp15 registers the driver accesses, with their `CRn, CRm, opc2` encoding. -/
inductive cp15 where
  /-- Main ID register, `c0, c0, 0`. -/
  | MIDR
  /-- Control register, `c9, c12, 0`. -/
  | PMCR
  /-- Count enable set, `c9, c12, 1`. -/
  | PMCNTENSET
  /-- Count enable clear, `c9, c12, 2`. -/
  | PMCNTENCLR
  /-- Overflow flag status, `c9, c12, 3`. -/
  | PMOVSR
  /-- Counter selection, `c9, c12, 5`. -/
  | PMSELR
  /-- Cycle count, `c9, c13, 0`. -/
  | PMCCNTR
  /-- Event type of the selected counter, `c9, c13, 1`. -/
  | PMXEVTYPER
  /-- Count of the selected counter, `c9, c13, 2`. -/
  | PMXEVCNTR
  /-- Interrupt enable set, `c9, c14, 1`. -/
  | PMINTENSET
  /-- Interrupt enable clear, `c9, c14, 2`. -/
  | PMINTENCLR
deriving DecidableEq

/-- One executed instruction: a register read with the value read, a register
write with the value written, or an instruction barrier. -/
inductive access where
  | mrc (r : cp15) (value : Nat)
  | mcr (r : cp15) (value : Nat)
  | isb
deriving DecidableEq

/-- The register state of one core and the trace of the instructions executed on it.
`cnten`, `inten` and `ovsr` are the bit masks seen through the set/clear
register pairs; `evtyper` and `evcntr` are indexed by the counter number. -/
structure pmu_regs where
  midr : Nat
  pmcr : Nat
  cnten : Nat
  inten : Nat
  ovsr : Nat
  selr : Nat
  evtyper : Nat → Nat
  evcntr : Nat → Nat
  ccntr : Nat
  trace : List access

/-- Clears in `a` the bits that are set in `v` (the effect of a write to a
clear register, or of a write to the write-one-to-clear overflow register). -/
def clear_bits (a v : Nat) : Nat := a ^^^ (a &&& v)

/-- The effect of a write to the control register: the bits E, D, X, DP are kept,
the upper (read-only) fields stay, P resets every event counter and C resets
the cycle counter; P and C read back as zero. -/
def pmcr_write (v : Nat) (s : pmu_regs) : pmu_regs :=
  { s with
    pmcr := (s.pmcr / 64) * 64 + (v % 64) % 2 + ((v % 64) / 8) * 8
    evcntr := if v.testBit 1 then fun _ => 0 else s.evcntr
    ccntr := if v.testBit 2 then 0 else s.ccntr }

/-- The instruction `mcr p15, 0, v, ...`: write `v` to register `r`. -/
def mcr (r : cp15) (v : Nat) (s : pmu_regs) : pmu_regs :=
  let s := { s with trace := s.trace ++ [access.mcr r v] }
  match r with
  | cp15.MIDR => s
  | cp15.PMCR => pmcr_write v s
  | cp15.PMCNTENSET => { s with cnten := s.cnten ||| v }
  | cp15.PMCNTENCLR => { s with cnten := clear_bits s.cnten v }
  | cp15.PMOVSR => { s with ovsr := clear_bits s.ovsr v }
  | cp15.PMSELR => { s with selr := v }
  | cp15.PMCCNTR => { s with ccntr := v }
  | cp15.PMXEVTYPER => { s with evtyper := Function.update s.evtyper s.selr v }
  | cp15.PMXEVCNTR => { s with evcntr := Function.update s.evcntr s.selr v }
  | cp15.PMINTENSET => { s with inten := s.inten ||| v }
  | cp15.PMINTENCLR => { s with inten := clear_bits s.inten v }

/-- The value a read of register `r` returns. -/
def reg_value (r : cp15) (s : pmu_regs) : Nat :=
  match r with
  | cp15.MIDR => s.midr
  | cp15.PMCR => s.pmcr
  | cp15.PMCNTENSET => s.cnten
  | cp15.PMCNTENCLR => s.cnten
  | cp15.PMOVSR => s.ovsr
  | cp15.PMSELR => s.selr
  | cp15.PMCCNTR => s.ccntr
  | cp15.PMXEVTYPER => s.evtyper s.selr
  | cp15.PMXEVCNTR => s.evcntr s.selr
  | cp15.PMINTENSET => s.inten
  | cp15.PMINTENCLR => s.inten

/-- The instruction `mrc p15, 0, %0, ...`: read register `r`. -/
def mrc (r : cp15) (s : pmu_regs) : Nat × pmu_regs :=
  (reg_value r s, { s with trace := s.trace ++ [access.mrc r (reg_value r s)] })

/-- The barrier `isb()`. -/
def isb (s : pmu_regs) : pmu_regs :=
  { s with trace := s.trace ++ [access.isb] }

/-- The operand `1 << idx` as the 32-bit word handed to `mcr`: bit `idx` alone for
`idx < 32`.  For `idx >= 32` C leaves the shift undefined; the word is then 0,
what a 32-bit left shift by that amount leaves. -/
def bit_of (idx : Nat) : Nat := (1 <<< idx) % 2 ^ 32

/-! ## Register access layer -/

def armv7_get_ic (s : pmu_regs) : Nat × pmu_regs :=
  let (value, s) := mrc cp15.MIDR s
  ((value &&& 0xffff) >>> 4, s)

def armv7_pmu_counter_select (idx : Nat) (s : pmu_regs) : pmu_regs :=
  isb (mcr cp15.PMSELR idx s)

def armv7_pmu_type_select (idx : Nat) (type : Nat) (s : pmu_regs) : pmu_regs :=
  mcr cp15.PMXEVTYPER type (armv7_pmu_counter_select idx s)

def armv7_pmu_read_count (idx : Nat) (s : pmu_regs) : Nat × pmu_regs :=
  if idx = 31 then mrc cp15.PMCCNTR s
  else mrc cp15.PMXEVCNTR (armv7_pmu_counter_select idx s)

def armv7_pmu_write_count (idx : Nat) (value : Nat) (s : pmu_regs) : pmu_regs :=
  if idx = 31 then mcr cp15.PMCCNTR value s
  else mcr cp15.PMXEVCNTR value (armv7_pmu_counter_select idx s)

def armv7_pmu_enable_count (idx : Nat) (s : pmu_regs) : pmu_regs :=
  mcr cp15.PMCNTENSET (bit_of idx) s

def armv7_pmu_disable_count (idx : Nat) (s : pmu_regs) : pmu_regs :=
  mcr cp15.PMCNTENCLR (bit_of idx) s

def armv7_pmu_enable_intr (idx : Nat) (s : pmu_regs) : pmu_regs :=
  mcr cp15.PMINTENSET (bit_of idx) s

def armv7_pmu_disable_intr (idx : Nat) (s : pmu_regs) : pmu_regs :=
  mcr cp15.PMINTENCLR (bit_of idx) s

def armv7_pmu_overflow (s : pmu_regs) : Nat × pmu_regs :=
  let (val, s) := mrc cp15.PMOVSR s
  (val, mcr cp15.PMOVSR val s)

def armv7_pmu_control_read (s : pmu_regs) : Nat × pmu_regs :=
  mrc cp15.PMCR s

def armv7_pmu_control_write (val : Nat) (s : pmu_regs) : pmu_regs :=
  let val := val &&& ARMV7_PMCR_MASK
  mcr cp15.PMCR val (isb s)

/-- The conversion of a 32-bit unsigned value to `int`. -/
def to_int32 (v : Nat) : Int :=
  if v % 2 ^ 32 < 2 ^ 31 then ((v % 2 ^ 32 : Nat) : Int) else ((v % 2 ^ 32 : Nat) : Int) - 2 ^ 32

/-- The shift `>>` of a negative `int` is the arithmetic one; `x & 0x1f` on a
two-complement `int` is the residue of `x` modulo `0x1f + 1`. -/
def armv7_pmu_hw_get_counters (s : pmu_regs) : Int × pmu_regs :=
  let (v, s) := armv7_pmu_control_read s
  let count : Int := to_int32 v
  let count := (count >>> ARMV7_PMCR_N_SHIFT) % ((ARMV7_PMCR_N_MASK : Int) + 1)
  (count, s)

/-! ## Counter lifecycle -/

/-- The loop of `armv7_pmu_hw_reset_all`, at index `i` with `n` iterations left. -/
def reset_all_loop : Nat → Nat → pmu_regs → pmu_regs
  | 0, _, s => s
  | n + 1, i, s =>
    reset_all_loop n (i + 1) (armv7_pmu_disable_count i (armv7_pmu_disable_intr i s))

def armv7_pmu_hw_reset_all (generic_counters : Int) (s : pmu_regs) : pmu_regs :=
  let s := armv7_pmu_control_write (ARMV7_PMCR_C ||| ARMV7_PMCR_P) s
  let s := reset_all_loop generic_counters.toNat 0 s
  let s := armv7_pmu_disable_intr 31 s
  let s := armv7_pmu_disable_count 31 s
  (armv7_pmu_overflow s).2

/-- The slot `pmu[k]` for an `int` index `k`; `none` outside the array. -/
def slot_at (pmu : List met_pmu) (k : Int) : Option met_pmu :=
  if k < 0 then none else pmu[k.toNat]?

/-- The loop of `armv7_pmu_hw_start`, at index `i` with `n` iterations left. -/
def start_loop (MODE_POLLING : Nat) (pmu : List met_pmu) :
    Nat → Nat → pmu_regs → Option pmu_regs
  | 0, _, s => some s
  | n + 1, i, s =>
    match pmu[i]? with
    | none => none
    | some slot =>
      if slot.mode = MODE_POLLING then
        start_loop MODE_POLLING pmu n (i + 1)
          (armv7_pmu_enable_count i (armv7_pmu_type_select i (slot.event % 2 ^ 32) s))
      else start_loop MODE_POLLING pmu n (i + 1) s

def armv7_pmu_hw_start (MODE_POLLING : Nat) (pmu : List met_pmu) (count : Int)
    (s : pmu_regs) : Option pmu_regs :=
  let generic := count - 1
  let s := armv7_pmu_hw_reset_all generic s
  match start_loop MODE_POLLING pmu generic.toNat 0 s with
  | none => none
  | some s =>
    match slot_at pmu (count - 1) with
    | none => none
    | some last =>
      let s := if last.mode = MODE_POLLING then armv7_pmu_enable_count 31 s else s
      some (armv7_pmu_control_write ARMV7_PMCR_E s)

def armv7_pmu_hw_stop (count : Int) (s : pmu_regs) : pmu_regs :=
  let generic := count - 1
  armv7_pmu_hw_reset_all generic s

/-- The loop of `armv7_pmu_hw_polling`, at index `i` with `n` iterations left;
`cnt` values have been stored in `pmu_value` so far. -/
def polling_loop (MODE_POLLING : Nat) (pmu : List met_pmu) :
    Nat → Nat → Nat → (Nat → Nat) → pmu_regs → Option (Nat × (Nat → Nat) × pmu_regs)
  | 0, _, cnt, pmu_value, s => some (cnt, pmu_value, s)
  | n + 1, i, cnt, pmu_value, s =>
    match pmu[i]? with
    | none => none
    | some slot =>
      if slot.mode = MODE_POLLING then
        polling_loop MODE_POLLING pmu n (i + 1) (cnt + 1)
          (Function.update pmu_value cnt (armv7_pmu_read_count i s).1)
          (armv7_pmu_read_count i s).2
      else polling_loop MODE_POLLING pmu n (i + 1) cnt pmu_value s

/-- The result is the returned count, the caller's array `pmu_value` after the call
and the register state after the call. -/
def armv7_pmu_hw_polling (MODE_POLLING : Nat) (pmu : List met_pmu) (count : Int)
    (pmu_value : Nat → Nat) (s : pmu_regs) : Option (Nat × (Nat → Nat) × pmu_regs) :=
  let generic := count - 1
  match polling_loop MODE_POLLING pmu generic.toNat 0 0 pmu_value s with
  | none => none
  | some (cnt, pmu_value, s) =>
    match slot_at pmu (count - 1) with
    | none => none
    | some last =>
      if last.mode = MODE_POLLING then
        some (cnt + 1, Function.update pmu_value cnt (armv7_pmu_read_count 31 s).1,
          armv7_pmu_control_write (ARMV7_PMCR_C ||| ARMV7_PMCR_P ||| ARMV7_PMCR_E)
            (armv7_pmu_read_count 31 s).2)
      else
        some (cnt, pmu_value,
          armv7_pmu_control_write (ARMV7_PMCR_C ||| ARMV7_PMCR_P ||| ARMV7_PMCR_E) s)

/-! ## Event catalogue -/

/-- The character `'\0'`. -/
def NUL : Char := Char.ofNat 0

/-- The C string stored in a character array: the characters before the first NUL. -/
def c_string (a : List Char) : List Char := a.takeWhile (fun c => c ≠ NUL)

/-- The call `strncpy(dst, src, n)`: the first `n` cells of `dst` receive the string `src`,
padded with NUL when it is shorter than `n`; no terminator is added when it
is not. -/
def strncpy (dst : Nat → Char) (src : List Char) (n : Nat) : Nat → Char :=
  fun k => if k < n then ((c_string src)[k]?).getD NUL else dst k

/-- The conversion of an `int` to `unsigned int`, which C applies to `event` when it
compares it with the `unsigned int` field of a descriptor: a non-negative
value is kept, a negative one has 2^32 added (`-1` becomes `0xFFFFFFFF`).
For every value of an `int` this is the value modulo 2^32. -/
def to_u32 (x : Int) : Nat :=
  if 0 ≤ x then x.toNat else (x + 2 ^ 32).toNat

/-- The loop of `armv7_pmu_hw_get_event_desc`, at index `i` with `n` iterations left.
The value is the index at which the loop stops and the buffer at that point. -/
def get_event_desc_loop (MXSIZE_PMU_DESC : Nat) (desc : List pmu_desc) (event : Int) :
    Nat → Nat → (Nat → Char) → Option (Nat × (Nat → Char))
  | 0, i, event_desc => some (i, event_desc)
  | n + 1, i, event_desc =>
    match desc[i]? with
    | none => none
    | some d =>
      if d.event = to_u32 event then
        some (i, Function.update (strncpy event_desc d.name (MXSIZE_PMU_DESC - 1))
          (MXSIZE_PMU_DESC - 1) NUL)
      else get_event_desc_loop MXSIZE_PMU_DESC desc event n (i + 1) event_desc

/-- The argument `event_desc` is `none` for a null pointer, else the buffer it points to.
The result is the returned `int` and the buffer after the call.
`MXSIZE_PMU_DESC` is the (positive) size of a name buffer. -/
def armv7_pmu_hw_get_event_desc (MXSIZE_PMU_DESC : Nat) (chip : Option chip_pmu)
    (i : Int) (event : Int) (event_desc : Option (Nat → Char)) :
    Option (Int × Option (Nat → Char)) :=
  match event_desc with
  | none => some (-1, none)
  | some buf =>
    match chip with
    | none => none
    | some c =>
      match get_event_desc_loop MXSIZE_PMU_DESC c.desc event c.count 0 buf with
      | none => none
      | some (i, buf) => if i = c.count then some (-1, some buf) else some (0, some buf)

/-- The first loop of `armv7_pmu_hw_check_event`, at index `i` with `n` iterations left;
the value is the index at which the loop stops. -/
def check_event_dup_loop (pmu : List met_pmu) (event : Int) : Nat → Nat → Option Nat
  | 0, i => some i
  | n + 1, i =>
    match pmu[i]? with
    | none => none
    | some slot =>
      if (slot.event : Int) = event then some i
      else check_event_dup_loop pmu event n (i + 1)

/-- The second loop of `armv7_pmu_hw_check_event`, at index `i` with `n` iterations left. -/
def check_event_desc_loop (desc : List pmu_desc) (event : Int) : Nat → Nat → Option Nat
  | 0, i => some i
  | n + 1, i =>
    match desc[i]? with
    | none => none
    | some d =>
      if d.event = to_u32 event then some i
      else check_event_desc_loop desc event n (i + 1)

def armv7_pmu_hw_check_event (chip : Option chip_pmu) (pmu : List met_pmu) (idx : Int)
    (event : Int) : Option Int :=
  match check_event_dup_loop pmu event idx.toNat 0 with
  | none => none
  | some i =>
    if (i : Int) < idx then some (-1)
    else
      match chip with
      | none => none
      | some c =>
        match check_event_desc_loop c.desc event c.count 0 with
        | none => none
        | some i => if i = c.count then some (-1) else some 0

/-! ## Init entry -/

/-- The fields of `struct cpu_pmu_hw` that the init entry sets; `cpu_name` is `none`
while the pointer is unset. -/
structure cpu_pmu_hw where
  name : String
  nr_cnt : Int
  cpu_name : Option String
deriving DecidableEq

/-- The global `armv7_pmu` as the initialiser leaves it. -/
def armv7_pmu : cpu_pmu_hw := ⟨"armv7_pmu", 0, none⟩

/-- A value of type `struct cpu_pmu_hw *`: null, the address of `armv7_pmu`, or a
handle owned by the legacy driver. -/
inductive cpu_pmu_hw_ptr where
  | NULL
  | armv7_pmu
  | legacy (h : cpu_pmu_hw)
deriving DecidableEq

/-- The state the init entry works on: the global pointer `chip` (`none` when null),
the global `armv7_pmu`, the registers, and the arguments of the calls made to
`v6_cpu_pmu_hw_init` so far. -/
structure driver where
  chip : Option chip_pmu
  armv7_pmu : cpu_pmu_hw
  regs : pmu_regs
  v6_calls : List Nat

/-- The loop of `cpu_pmu_hw_init` over the rest of the table `chips`. -/
def init_loop (type : Nat) : List chip_pmu → Option chip_pmu → Option chip_pmu
  | [], chip => chip
  | c :: rest, chip => if c.type = type then some c else init_loop type rest chip

def cpu_pmu_hw_init (T : pmu_name_tables) (v6_cpu_pmu_hw_init : Nat → cpu_pmu_hw_ptr)
    (d : driver) : cpu_pmu_hw_ptr × driver :=
  let (type, regs) := armv7_get_ic d.regs
  let d := { d with regs := regs, chip := init_loop type (chips T) d.chip }
  let (pmu, d) :=
    match d.chip with
    | some c =>
      let (n, regs) := armv7_pmu_hw_get_counters d.regs
      (cpu_pmu_hw_ptr.armv7_pmu,
        { d with regs := regs,
                 armv7_pmu := { d.armv7_pmu with nr_cnt := n + 1, cpu_name := some c.cpu_name } })
    | none => (v6_cpu_pmu_hw_init type, { d with v6_calls := d.v6_calls ++ [type] })
  if d.chip = none ∧ pmu = cpu_pmu_hw_ptr.NULL then
    (cpu_pmu_hw_ptr.NULL, { d with chip := some chip_unknown })
  else (pmu, d)

/-! ## Polling-mode slots -/

/-- Whether slot `i` of the array exists and is in polling mode. -/
def is_polling (MODE_POLLING : Nat) (pmu : List met_pmu) (i : Nat) : Bool :=
  match pmu[i]? with
  | some slot => decide (slot.mode = MODE_POLLING)
  | none => false

/-- The indices of the polling-mode slots of the array, in slot order. -/
def polling_slots (MODE_POLLING : Nat) (pmu : List met_pmu) : List Nat :=
  (List.range pmu.length).filter (is_polling MODE_POLLING pmu)

/-! ## Predicates on the instruction trace -/

/-- The trace of `s2` is the trace of `s` followed by instructions that all satisfy `P`. -/
def trace_ext (P : access → Prop) (s s2 : pmu_regs) : Prop :=
  ∃ tr, s2.trace = s.trace ++ tr ∧ ∀ a ∈ tr, P a

/-- An instruction other than a write to the control register. -/
def not_control_write (a : access) : Prop :=
  ∀ v, a ≠ access.mcr cp15.PMCR v

/-- The instruction uses counter indices within range: a counter selection selects an
index of at most 30 (never the cycle counter index 31), and the word written
to a set or clear register is `1 << idx` for an `idx` of at most 31. -/
def access_in_range : access → Prop
  | access.mcr cp15.PMSELR v => v ≤ 30
  | access.mcr cp15.PMCNTENSET v => ∃ idx, idx ≤ 31 ∧ v = 1 <<< idx
  | access.mcr cp15.PMCNTENCLR v => ∃ idx, idx ≤ 31 ∧ v = 1 <<< idx
  | access.mcr cp15.PMINTENSET v => ∃ idx, idx ≤ 31 ∧ v = 1 <<< idx
  | access.mcr cp15.PMINTENCLR v => ∃ idx, idx ≤ 31 ∧ v = 1 <<< idx
  | _ => True

/-! ## The validate-then-append use of `armv7_pmu_hw_check_event` -/

/-- One step of validate-then-append: the requested slot is appended to the slot sequence only
when `armv7_pmu_hw_check_event`, called with the current length as insertion
index, returns 0 for its event. -/
def validate_then_append (chip : Option chip_pmu) (slots : List met_pmu) (slot : met_pmu) :
    List met_pmu :=
  if armv7_pmu_hw_check_event chip slots slots.length slot.event = some 0 then slots ++ [slot]
  else slots

/-- The slot sequence built from empty by validate-then-append over a list of requests. -/
def build_slots (chip : Option chip_pmu) (requests : List met_pmu) : List met_pmu :=
  requests.foldl (validate_then_append chip) []

/-! ## Sample data for evaluations -/

/-- A two-entry catalogue used in the evaluations below. -/
def sample_chip : chip_pmu :=
  ⟨CORTEX_A7, [⟨0x08, "INST_RETIRED".toList⟩, ⟨0x11, "CPU_CYCLES".toList⟩], 2, "Cortex-A7"⟩

/-- The slot array of the five-slot scenario, with `MODE_POLLING = 2`: polling,
disabled, polling, disabled, polling (cycle counter). -/
def sample_slots : List met_pmu :=
  [⟨2, 0x08⟩, ⟨0, 0⟩, ⟨2, 0x11⟩, ⟨0, 0⟩, ⟨2, 0xff⟩]

/-- A register state in which event counter `i` holds `100 + i`, the cycle counter
holds 7 and every count-enable bit is set. -/
def sample_regs : pmu_regs :=
  ⟨0x410FC075, 0x41093000, 0xffffffff, 0, 0, 0, fun _ => 0, fun i => 100 + i, 7, []⟩

/-- Descriptor tables for the evaluations: the sample catalogue as `a7_pmu_desc`, the
other two tables empty. -/
def sample_tables : pmu_name_tables :=
  ⟨[⟨0x08, "INST_RETIRED".toList⟩, ⟨0x11, "CPU_CYCLES".toList⟩], 2, [], 0, [], 0⟩

/-- The driver at load time on a core whose main ID register reads 0x410FC075
(part number 0xC07) and whose control register reports 6 generic counters. -/
def sample_driver : driver :=
  ⟨none, armv7_pmu,
    ⟨0x410FC075, 0x41093000, 0, 0, 0, 0, fun _ => 0, fun _ => 0, 0, []⟩, []⟩

/-- The driver at load time on a core whose main ID register reads 0x410FB760
(part number 0xB76, not in the table). -/
def sample_driver_other_cpu : driver :=
  ⟨none, armv7_pmu,
    ⟨0x410FB760, 0x41093000, 0, 0, 0, 0, fun _ => 0, fun _ => 0, 0, []⟩, []⟩

/-- A register state whose control register has bit 31 set and reports 21 generic
counters in bits 11 to 15. -/
def sample_regs_high : pmu_regs :=
  ⟨0x410FC075, 0x8000A800, 0, 0, 0, 0, fun _ => 0, fun _ => 0, 0, []⟩

/-- The driver on the core with part number 0xB76 after a first, failed call of the
init entry: the binding is the sentinel `chip_unknown`. -/
def sample_driver_rebound : driver :=
  ⟨some chip_unknown, armv7_pmu,
    ⟨0x410FB760, 0x41093000, 0, 0, 0, 0, fun _ => 0, fun _ => 0, 0, []⟩, [0xB76]⟩

/-- A one-entry catalogue whose event code is the largest `unsigned int`. -/
def sample_chip_high : chip_pmu :=
  ⟨CORTEX_A7, [⟨0xFFFFFFFF, "ALL_ONES".toList⟩], 1, "Cortex-A7"⟩

/-- A register state with every register zero and an empty trace. -/
def regs_zero : pmu_regs :=
  ⟨0, 0, 0, 0, 0, 0, fun _ => 0, fun _ => 0, 0, []⟩

/-! ## Auxiliary facts on lists and on the scanning loops -/

theorem check_event_dup_loop_eq (pmu : List met_pmu) (e : Int) :
    ∀ n i, i + n ≤ pmu.length →
      check_event_dup_loop pmu e n i =
        some (i + ((pmu.drop i).take n).findIdx (fun s => decide ((s.event : Int) = e))) := by
  intro n
  induction n with
  | zero => intro i _; simp [check_event_dup_loop]
  | succ n ih =>
    intro i hi
    have hlt : i < pmu.length := by omega
    rw [check_event_dup_loop, List.getElem?_eq_getElem hlt, List.drop_eq_getElem_cons hlt]
    simp only [List.take_succ_cons, List.findIdx_cons]
    by_cases h : (pmu[i].event : Int) = e
    · simp [h]
    · simp only [h, if_false, decide_False, cond_false]
      rw [ih (i + 1) (by omega)]
      simp; omega

theorem check_event_desc_loop_eq (desc : List pmu_desc) (e : Int) :
    ∀ n i, i + n ≤ desc.length →
      check_event_desc_loop desc e n i =
        some (i + ((desc.drop i).take n).findIdx (fun d => decide (d.event = to_u32 e))) := by
  intro n
  induction n with
  | zero => intro i _; simp [check_event_desc_loop]
  | succ n ih =>
    intro i hi
    have hlt : i < desc.length := by omega
    rw [check_event_desc_loop, List.getElem?_eq_getElem hlt, List.drop_eq_getElem_cons hlt]
    simp only [List.take_succ_cons, List.findIdx_cons]
    by_cases h : desc[i].event = to_u32 e
    · simp [h]
    · simp only [h, if_false, decide_False, cond_false]
      rw [ih (i + 1) (by omega)]
      simp; omega

theorem check_event_eq (c : chip_pmu) (pmu : List met_pmu) (idx e : Int)
    (hidx : idx ≤ pmu.length) (hc : c.count ≤ c.desc.length) :
    armv7_pmu_hw_check_event (some c) pmu idx e =
      if ∃ s ∈ pmu.take idx.toNat, (s.event : Int) = e then some (-1)
      else if ∃ d ∈ c.desc.take c.count, d.event = to_u32 e then some 0 else some (-1) := by
  have hn : idx.toNat ≤ pmu.length := by omega
  unfold armv7_pmu_hw_check_event
  rw [check_event_dup_loop_eq pmu e idx.toNat 0 (by omega)]
  simp only [check_event_desc_loop_eq c.desc e c.count 0 (by omega), List.drop_zero, Nat.zero_add]
  have h1 : ((List.findIdx (fun s => decide ((s.event : Int) = e)) (pmu.take idx.toNat) : Nat) : Int) < idx ↔
      ∃ s ∈ pmu.take idx.toNat, (s.event : Int) = e := by
    rw [← Int.lt_toNat]
    have := @List.findIdx_lt_length _ (fun s : met_pmu => decide ((s.event : Int) = e)) (pmu.take idx.toNat)
    rw [List.length_take, Nat.min_eq_left hn] at this
    simpa using this
  have h2 : List.findIdx (fun d => decide (d.event = to_u32 e)) (c.desc.take c.count) = c.count ↔
      ¬ ∃ d ∈ c.desc.take c.count, d.event = to_u32 e := by
    have := @List.findIdx_eq_length _ (fun d : pmu_desc => decide (d.event = to_u32 e)) (c.desc.take c.count)
    rw [List.length_take, Nat.min_eq_left hc] at this
    simpa using this
  by_cases hd : ∃ s ∈ pmu.take idx.toNat, (s.event : Int) = e
  · rw [if_pos (h1.2 hd), if_pos hd]
  · rw [if_neg (fun h => hd (h1.1 h)), if_neg hd]
    by_cases hf : ∃ d ∈ c.desc.take c.count, d.event = to_u32 e
    · rw [if_pos hf, if_neg (fun h => h2.1 h hf)]
    · rw [if_neg hf, if_pos (h2.2 hf)]


theorem mem_take_iff_getElem? {α : Type} (l : List α) (n : Nat) (x : α) :
    x ∈ l.take n ↔ ∃ i, i < n ∧ l[i]? = some x := by
  rw [List.mem_iff_getElem?]
  constructor
  · rintro ⟨i, hi⟩
    rw [List.getElem?_take] at hi
    by_cases h : i < n
    · exact ⟨i, h, by simpa [h] using hi⟩
    · simp [h] at hi
  · rintro ⟨i, h, hi⟩
    exact ⟨i, by rw [List.getElem?_take, if_pos h]; exact hi⟩

theorem take_eq_of_getElem?_eq {α : Type} (l l2 : List α) (n : Nat)
    (h : ∀ i, i < n → l2[i]? = l[i]?) : l2.take n = l.take n := by
  apply List.ext_getElem?
  intro i
  rw [List.getElem?_take, List.getElem?_take]
  by_cases hi : i < n
  · simp [hi, h i hi]
  · simp [hi]

theorem le_length_of_getElem?_eq {α : Type} (l l2 : List α) (n : Nat) (hn : n ≤ l.length)
    (h : ∀ i, i < n → l2[i]? = l[i]?) : n ≤ l2.length := by
  by_contra hlt
  have h1 := h l2.length (by omega)
  rw [List.getElem?_eq_none (le_refl _), List.getElem?_eq_getElem (by omega)] at h1
  exact absurd h1 (by simp)

theorem get_event_desc_loop_eq (MX : Nat) (desc : List pmu_desc) (e : Int) :
    ∀ n i (buf : Nat → Char), i ≤ desc.length →
      get_event_desc_loop MX desc e n i buf =
        match ((desc.drop i).take n).find? (fun d => decide (d.event = to_u32 e)) with
        | some d =>
          some (i + ((desc.drop i).take n).findIdx (fun d => decide (d.event = to_u32 e)),
            Function.update (strncpy buf d.name (MX - 1)) (MX - 1) NUL)
        | none => if i + n ≤ desc.length then some (i + n, buf) else none := by
  intro n
  induction n with
  | zero => intro i buf hi; simp [get_event_desc_loop, hi]
  | succ n ih =>
    intro i buf hi
    rw [get_event_desc_loop]
    by_cases hlt : i < desc.length
    · rw [List.getElem?_eq_getElem hlt, List.drop_eq_getElem_cons hlt]
      simp only [List.take_succ_cons, List.findIdx_cons, List.find?_cons]
      by_cases h : desc[i].event = to_u32 e
      · simp [h]
      · simp only [h, if_false, decide_False, cond_false]
        rw [ih (i + 1) buf (by omega)]
        have e1 : i + 1 + n = i + (n + 1) := by omega
        rw [e1]
        cases List.find? (fun d => decide (d.event = to_u32 e)) (List.take n (List.drop (i + 1) desc)) with
        | none => rfl
        | some d => simp only [Option.some.injEq, Prod.mk.injEq, and_true]; omega
    · have hge : desc.length ≤ i := by omega
      rw [List.getElem?_eq_none hge, List.drop_eq_nil_of_le hge]
      have : ¬ (i + (n + 1) ≤ desc.length) := by omega
      simp [this]

theorem get_event_desc_eq (MX : Nat) (c : chip_pmu) (i e : Int) (buf : Nat → Char) :
    armv7_pmu_hw_get_event_desc MX (some c) i e (some buf) =
      match (c.desc.take c.count).find? (fun d => decide (d.event = to_u32 e)) with
      | some d => some (0, some (Function.update (strncpy buf d.name (MX - 1)) (MX - 1) NUL))
      | none => if c.count ≤ c.desc.length then some (-1, some buf) else none := by
  unfold armv7_pmu_hw_get_event_desc
  simp only [get_event_desc_loop_eq MX c.desc e c.count 0 buf (Nat.zero_le _), List.drop_zero,
    Nat.zero_add]
  cases hf : List.find? (fun d => decide (d.event = to_u32 e)) (List.take c.count c.desc) with
  | none =>
    by_cases hc : c.count ≤ c.desc.length
    · simp [hc]
    · simp [hc]
  | some d =>
    have hlt : List.findIdx (fun d => decide (d.event = to_u32 e)) (List.take c.count c.desc)
        < c.count := by
      have h1 : List.findIdx (fun d => decide (d.event = to_u32 e)) (List.take c.count c.desc)
          < (List.take c.count c.desc).length :=
        List.findIdx_lt_length.2 ⟨d, List.mem_of_find?_eq_some hf, (List.find?_eq_some.1 hf).1⟩
      rw [List.length_take] at h1
      omega
    show (if _ = c.count then _ else _) = _
    rw [if_neg (Nat.ne_of_lt hlt)]

theorem find?_take_eq_none_iff (c : chip_pmu) (e : Int) :
    (c.desc.take c.count).find? (fun d => decide (d.event = to_u32 e)) = none ↔
      ¬ ∃ j, j < c.count ∧ ∃ d, c.desc[j]? = some d ∧ d.event = to_u32 e := by
  rw [List.find?_eq_none]
  constructor
  · rintro h ⟨j, hj, d, hget, hde⟩
    exact h d ((mem_take_iff_getElem? c.desc _ d).2 ⟨j, hj, hget⟩) (by simpa using hde)
  · intro h d hd hp
    obtain ⟨j, hj, hget⟩ := (mem_take_iff_getElem? c.desc _ d).1 hd
    exact h ⟨j, hj, d, hget, by simpa using hp⟩

theorem c_string_getElem_ne_NUL (a : List Char) (k : Nat) (x : Char)
    (h : (c_string a)[k]? = some x) : x ≠ NUL := by
  have hm : x ∈ c_string a := List.mem_iff_getElem?.2 ⟨k, h⟩
  have := List.mem_takeWhile_imp hm
  simpa using this

theorem written_buffer_spec (MX : Nat) (buf : Nat → Char) (name : List Char) (hMX : 1 ≤ MX) :
    min (c_string name).length (MX - 1) + 1 ≤ MX ∧
    (∀ k, k < min (c_string name).length (MX - 1) →
      (c_string name)[k]? =
          some (Function.update (strncpy buf name (MX - 1)) (MX - 1) NUL k) ∧
        Function.update (strncpy buf name (MX - 1)) (MX - 1) NUL k ≠ NUL) ∧
    Function.update (strncpy buf name (MX - 1)) (MX - 1) NUL
      (min (c_string name).length (MX - 1)) = NUL ∧
    (∀ k, MX ≤ k → Function.update (strncpy buf name (MX - 1)) (MX - 1) NUL k = buf k) := by
  refine ⟨by omega, ?_, ?_, ?_⟩
  · intro k hk
    have hk1 : k < MX - 1 := lt_of_lt_of_le hk (min_le_right _ _)
    have hk2 : k < (c_string name).length := lt_of_lt_of_le hk (min_le_left _ _)
    have hval : Function.update (strncpy buf name (MX - 1)) (MX - 1) NUL k =
        (c_string name)[k] := by
      rw [Function.update_noteq (Nat.ne_of_lt hk1)]
      simp [strncpy, hk1, List.getElem?_eq_getElem hk2]
    rw [hval]
    exact ⟨List.getElem?_eq_getElem hk2,
      c_string_getElem_ne_NUL name k _ (List.getElem?_eq_getElem hk2)⟩
  · by_cases hl : (c_string name).length < MX - 1
    · rw [Nat.min_eq_left (Nat.le_of_lt hl), Function.update_noteq (Nat.ne_of_lt hl)]
      simp [strncpy, hl]
    · rw [Nat.min_eq_right (by omega), Function.update_same]
  · intro k hk
    rw [Function.update_noteq (by omega)]
    have : ¬ k < MX - 1 := by omega
    simp [strncpy, this]

/-! ## Auxiliary facts on the conversion of `event` -/

theorem to_u32_nonneg (e : Int) (h : 0 ≤ e) (n : Nat) : n = to_u32 e ↔ (n : Int) = e := by
  unfold to_u32
  rw [if_pos h]
  omega

theorem to_u32_eq_mod (x : Int) (h1 : -2 ^ 31 ≤ x) (h2 : x < 2 ^ 31) :
    to_u32 x = (x % 2 ^ 32).toNat := by
  unfold to_u32
  norm_num at h1 h2 ⊢
  split <;> omega

theorem catalogue_match_nonneg (c : chip_pmu) (e : Int) (h : 0 ≤ e) :
    (∃ j, j < c.count ∧ ∃ d, c.desc[j]? = some d ∧ (d.event : Int) = e) ↔
      ∃ j, j < c.count ∧ ∃ d, c.desc[j]? = some d ∧ d.event = to_u32 e := by
  constructor
  · rintro ⟨j, hj, d, hget, hde⟩
    exact ⟨j, hj, d, hget, (to_u32_nonneg e h d.event).2 hde⟩
  · rintro ⟨j, hj, d, hget, hde⟩
    exact ⟨j, hj, d, hget, (to_u32_nonneg e h d.event).1 hde⟩

/-! ## Event validation (`armv7_pmu_hw_check_event`) -/

/-- The result of `armv7_pmu_hw_check_event` for every `int` event `e`, with the catalogue
condition as the code tests it: a descriptor event equal to `e` converted to
`unsigned int`. -/
theorem check_event_ok_iff_conv (c : chip_pmu) (pmu : List met_pmu) (idx e : Int)
    (hidx : idx ≤ pmu.length) (hc : c.count ≤ c.desc.length) :
    (armv7_pmu_hw_check_event (some c) pmu idx e = some 0 ↔
      (∀ i : Nat, (i : Int) < idx → ∀ slot, pmu[i]? = some slot → (slot.event : Int) ≠ e) ∧
      (∃ j, j < c.count ∧ ∃ d, c.desc[j]? = some d ∧ d.event = to_u32 e)) ∧
    (armv7_pmu_hw_check_event (some c) pmu idx e ≠ some 0 →
      armv7_pmu_hw_check_event (some c) pmu idx e = some (-1)) ∧
    (∀ pmu2 : List met_pmu, (∀ i : Nat, (i : Int) < idx → pmu2[i]? = pmu[i]?) →
      armv7_pmu_hw_check_event (some c) pmu2 idx e =
        armv7_pmu_hw_check_event (some c) pmu idx e) := by
  have hn : idx.toNat ≤ pmu.length := by omega
  have hdup : (∃ s ∈ pmu.take idx.toNat, (s.event : Int) = e) ↔
      ¬ ∀ i : Nat, (i : Int) < idx → ∀ slot, pmu[i]? = some slot → (slot.event : Int) ≠ e := by
    constructor
    · rintro ⟨s, hs, hse⟩ hall
      obtain ⟨i, hi, hget⟩ := (mem_take_iff_getElem? pmu _ s).1 hs
      exact hall i (Int.lt_toNat.1 hi) s hget hse
    · intro hall
      push_neg at hall
      obtain ⟨i, hi, slot, hget, hse⟩ := hall
      exact ⟨slot, (mem_take_iff_getElem? pmu _ slot).2 ⟨i, Int.lt_toNat.2 hi, hget⟩, hse⟩
  have hcat : (∃ d ∈ c.desc.take c.count, d.event = to_u32 e) ↔
      ∃ j, j < c.count ∧ ∃ d, c.desc[j]? = some d ∧ d.event = to_u32 e := by
    constructor
    · rintro ⟨d, hd, hde⟩
      obtain ⟨j, hj, hget⟩ := (mem_take_iff_getElem? c.desc _ d).1 hd
      exact ⟨j, hj, d, hget, hde⟩
    · rintro ⟨j, hj, d, hget, hde⟩
      exact ⟨d, (mem_take_iff_getElem? c.desc _ d).2 ⟨j, hj, hget⟩, hde⟩
  refine ⟨?_, ?_, ?_⟩
  · rw [check_event_eq c pmu idx e hidx hc]
    by_cases h1 : ∃ s ∈ pmu.take idx.toNat, (s.event : Int) = e
    · rw [if_pos h1]
      constructor
      · intro h; exact absurd h (by decide)
      · rintro ⟨hall, _⟩; exact absurd hall (hdup.1 h1)
    · rw [if_neg h1]
      have hall := not_not.1 (fun h => h1 (hdup.2 h))
      by_cases h2 : ∃ d ∈ c.desc.take c.count, d.event = to_u32 e
      · rw [if_pos h2]
        exact ⟨fun _ => ⟨hall, hcat.1 h2⟩, fun _ => rfl⟩
      · rw [if_neg h2]
        constructor
        · intro h; exact absurd h (by decide)
        · rintro ⟨_, hex⟩; exact absurd (hcat.2 hex) h2
  · rw [check_event_eq c pmu idx e hidx hc]
    by_cases h1 : ∃ s ∈ pmu.take idx.toNat, (s.event : Int) = e
    · rw [if_pos h1]; intro _; rfl
    · rw [if_neg h1]
      by_cases h2 : ∃ d ∈ c.desc.take c.count, d.event = to_u32 e
      · rw [if_pos h2]; intro h; exact absurd rfl h
      · rw [if_neg h2]; intro _; rfl
  · intro pmu2 hsame
    have hsame2 : ∀ i, i < idx.toNat → pmu2[i]? = pmu[i]? :=
      fun i hi => hsame i (Int.lt_toNat.1 hi)
    have hn2 : idx.toNat ≤ pmu2.length := le_length_of_getElem?_eq pmu pmu2 _ hn hsame2
    have hidx2 : idx ≤ pmu2.length := Int.toNat_le.1 hn2
    rw [check_event_eq c pmu idx e hidx hc, check_event_eq c pmu2 idx e hidx2 hc,
      take_eq_of_getElem?_eq pmu pmu2 _ hsame2]

/-- C1: with an active binding `c` whose first `count` descriptors exist and an insertion
index `idx` not above the length of the slot array, `armv7_pmu_hw_check_event`
returns 0 if and only if no slot below `idx` has the event `e` (the mode of the
slot plays no role) and `e` is the event of one of the first `count`
descriptors; in every other case it returns -1; and the slots at `idx` or above
do not influence the result.  The first conjunct covers every `int` value of
`e`, with the comparison of line 201 (`e` converted to `unsigned int`, so that
`-1` matches `0xFFFFFFFF`); the second is the same fact for an event code,
`0 <= e`, where the comparison is equality of the values. -/
theorem armv7_pmu_hw_check_event_ok_iff (c : chip_pmu) (pmu : List met_pmu) (idx e : Int)
    (hidx : idx ≤ pmu.length) (hc : c.count ≤ c.desc.length) :
    (armv7_pmu_hw_check_event (some c) pmu idx e = some 0 ↔
      (∀ i : Nat, (i : Int) < idx → ∀ slot, pmu[i]? = some slot → (slot.event : Int) ≠ e) ∧
      (∃ j, j < c.count ∧ ∃ d, c.desc[j]? = some d ∧ d.event = to_u32 e)) ∧
    (0 ≤ e →
      (armv7_pmu_hw_check_event (some c) pmu idx e = some 0 ↔
        (∀ i : Nat, (i : Int) < idx → ∀ slot, pmu[i]? = some slot → (slot.event : Int) ≠ e) ∧
        (∃ j, j < c.count ∧ ∃ d, c.desc[j]? = some d ∧ (d.event : Int) = e))) ∧
    (armv7_pmu_hw_check_event (some c) pmu idx e ≠ some 0 →
      armv7_pmu_hw_check_event (some c) pmu idx e = some (-1)) ∧
    (∀ pmu2 : List met_pmu, (∀ i : Nat, (i : Int) < idx → pmu2[i]? = pmu[i]?) →
      armv7_pmu_hw_check_event (some c) pmu2 idx e =
        armv7_pmu_hw_check_event (some c) pmu idx e) := by
  obtain ⟨h1, h2, h3⟩ := check_event_ok_iff_conv c pmu idx e hidx hc
  refine ⟨h1, ?_, h2, h3⟩
  intro he
  rw [h1, catalogue_match_nonneg c e he]

/-- Evaluation of C1: on the sample catalogue with one filled slot of event 0x08 the new
event 0x11 is accepted; on the catalogue holding 0xFFFFFFFF the event -1 is
accepted, as the comparison converts it to 0xFFFFFFFF. -/
theorem armv7_pmu_hw_check_event_ok_iff_witness :
    ((1 : Int) ≤ ([⟨2, 0x08⟩] : List met_pmu).length) ∧
    sample_chip.count ≤ sample_chip.desc.length ∧
    armv7_pmu_hw_check_event (some sample_chip) [⟨2, 0x08⟩] 1 0x11 = some 0 ∧
    ((0 : Int) ≤ ([] : List met_pmu).length) ∧
    sample_chip_high.count ≤ sample_chip_high.desc.length ∧
    armv7_pmu_hw_check_event (some sample_chip_high) [] 0 (-1) = some 0 :=
  ⟨by decide, by decide,
    (armv7_pmu_hw_check_event_ok_iff sample_chip [⟨2, 0x08⟩] 1 0x11 (by decide) (by decide)).1.2
      ⟨by
        intro i hi slot hget
        have hi0 : i = 0 := by omega
        subst hi0
        simp at hget
        subst hget
        decide,
       ⟨1, by decide, ⟨0x11, "CPU_CYCLES".toList⟩, by decide, by decide⟩⟩,
    by decide, by decide,
    (armv7_pmu_hw_check_event_ok_iff sample_chip_high [] 0 (-1) (by decide) (by decide)).1.2
      ⟨by
        intro i hi
        omega,
       ⟨0, by decide, ⟨0xFFFFFFFF, "ALL_ONES".toList⟩, by decide, by decide⟩⟩⟩

/-- C7, as stated, fails: on the two inputs of the claim the duplicate case and the
unknown-event case return the same value -1 (the catalogue holds 0x08 and
0x11, not 0x99). -/
theorem armv7_pmu_hw_check_event_duplicate_same_as_unknown :
    armv7_pmu_hw_check_event (some sample_chip) [⟨2, 0x08⟩] 1 0x08 = some (-1) ∧
    armv7_pmu_hw_check_event (some sample_chip) [] 0 0x99 = some (-1) ∧
    ¬ (armv7_pmu_hw_check_event (some sample_chip) [⟨2, 0x08⟩] 1 0x08 ≠
        armv7_pmu_hw_check_event (some sample_chip) [] 0 0x99) := by
  decide

/-- The two results of `armv7_pmu_hw_check_event` by case, for every `int` event `e`, with
the catalogue condition as the code tests it. -/
theorem check_event_outcomes_conv (c : chip_pmu) (pmu : List met_pmu) (idx e : Int)
    (hidx : idx ≤ pmu.length) (hc : c.count ≤ c.desc.length) :
    ((∃ i : Nat, (i : Int) < idx ∧ ∃ slot, pmu[i]? = some slot ∧ (slot.event : Int) = e) →
      armv7_pmu_hw_check_event (some c) pmu idx e = some (-1)) ∧
    ((¬ ∃ i : Nat, (i : Int) < idx ∧ ∃ slot, pmu[i]? = some slot ∧ (slot.event : Int) = e) →
      (¬ ∃ j, j < c.count ∧ ∃ d, c.desc[j]? = some d ∧ d.event = to_u32 e) →
      armv7_pmu_hw_check_event (some c) pmu idx e = some (-1)) ∧
    ((¬ ∃ i : Nat, (i : Int) < idx ∧ ∃ slot, pmu[i]? = some slot ∧ (slot.event : Int) = e) →
      (∃ j, j < c.count ∧ ∃ d, c.desc[j]? = some d ∧ d.event = to_u32 e) →
      armv7_pmu_hw_check_event (some c) pmu idx e = some 0) := by
  have hdup : (∃ s ∈ pmu.take idx.toNat, (s.event : Int) = e) ↔
      ∃ i : Nat, (i : Int) < idx ∧ ∃ slot, pmu[i]? = some slot ∧ (slot.event : Int) = e := by
    constructor
    · rintro ⟨s, hs, hse⟩
      obtain ⟨i, hi, hget⟩ := (mem_take_iff_getElem? pmu _ s).1 hs
      exact ⟨i, Int.lt_toNat.1 hi, s, hget, hse⟩
    · rintro ⟨i, hi, slot, hget, hse⟩
      exact ⟨slot, (mem_take_iff_getElem? pmu _ slot).2 ⟨i, Int.lt_toNat.2 hi, hget⟩, hse⟩
  have hcat : (∃ d ∈ c.desc.take c.count, d.event = to_u32 e) ↔
      ∃ j, j < c.count ∧ ∃ d, c.desc[j]? = some d ∧ d.event = to_u32 e := by
    constructor
    · rintro ⟨d, hd, hde⟩
      obtain ⟨j, hj, hget⟩ := (mem_take_iff_getElem? c.desc _ d).1 hd
      exact ⟨j, hj, d, hget, hde⟩
    · rintro ⟨j, hj, d, hget, hde⟩
      exact ⟨d, (mem_take_iff_getElem? c.desc _ d).2 ⟨j, hj, hget⟩, hde⟩
  rw [check_event_eq c pmu idx e hidx hc]
  refine ⟨?_, ?_, ?_⟩
  · intro h; rw [if_pos (hdup.2 h)]
  · intro h1 h2
    rw [if_neg (fun h => h1 (hdup.1 h)), if_neg (fun h => h2 (hcat.1 h))]
  · intro h1 h2
    rw [if_neg (fun h => h1 (hdup.1 h)), if_pos (hcat.2 h2)]

/-- C7, amended: `armv7_pmu_hw_check_event` has two results.  It returns -1 whenever `e`
is the event of an already filled slot, it returns the same -1 whenever `e` is
no duplicate and is absent from the catalogue, and it returns 0 otherwise.
The first three conjuncts cover every `int` value of `e`, with the catalogue
comparison of line 201 (`e` converted to `unsigned int`); the last two state
the catalogue cases for an event code, `0 <= e`, by equality of the values. -/
theorem armv7_pmu_hw_check_event_outcomes (c : chip_pmu) (pmu : List met_pmu) (idx e : Int)
    (hidx : idx ≤ pmu.length) (hc : c.count ≤ c.desc.length) :
    ((∃ i : Nat, (i : Int) < idx ∧ ∃ slot, pmu[i]? = some slot ∧ (slot.event : Int) = e) →
      armv7_pmu_hw_check_event (some c) pmu idx e = some (-1)) ∧
    ((¬ ∃ i : Nat, (i : Int) < idx ∧ ∃ slot, pmu[i]? = some slot ∧ (slot.event : Int) = e) →
      (¬ ∃ j, j < c.count ∧ ∃ d, c.desc[j]? = some d ∧ d.event = to_u32 e) →
      armv7_pmu_hw_check_event (some c) pmu idx e = some (-1)) ∧
    ((¬ ∃ i : Nat, (i : Int) < idx ∧ ∃ slot, pmu[i]? = some slot ∧ (slot.event : Int) = e) →
      (∃ j, j < c.count ∧ ∃ d, c.desc[j]? = some d ∧ d.event = to_u32 e) →
      armv7_pmu_hw_check_event (some c) pmu idx e = some 0) ∧
    (0 ≤ e →
      (¬ ∃ i : Nat, (i : Int) < idx ∧ ∃ slot, pmu[i]? = some slot ∧ (slot.event : Int) = e) →
      (¬ ∃ j, j < c.count ∧ ∃ d, c.desc[j]? = some d ∧ (d.event : Int) = e) →
      armv7_pmu_hw_check_event (some c) pmu idx e = some (-1)) ∧
    (0 ≤ e →
      (¬ ∃ i : Nat, (i : Int) < idx ∧ ∃ slot, pmu[i]? = some slot ∧ (slot.event : Int) = e) →
      (∃ j, j < c.count ∧ ∃ d, c.desc[j]? = some d ∧ (d.event : Int) = e) →
      armv7_pmu_hw_check_event (some c) pmu idx e = some 0) := by
  obtain ⟨h1, h2, h3⟩ := check_event_outcomes_conv c pmu idx e hidx hc
  refine ⟨h1, h2, h3, ?_, ?_⟩
  · intro he hnd hna
    exact h2 hnd (fun h => hna ((catalogue_match_nonneg c e he).2 h))
  · intro he hnd hin
    exact h3 hnd ((catalogue_match_nonneg c e he).1 hin)

/-- Evaluation of the amended C7: the event 0x08 is already in slot 0 and is refused. -/
theorem armv7_pmu_hw_check_event_outcomes_witness :
    ((1 : Int) ≤ ([⟨2, 0x08⟩] : List met_pmu).length) ∧
    sample_chip.count ≤ sample_chip.desc.length ∧
    armv7_pmu_hw_check_event (some sample_chip) [⟨2, 0x08⟩] 1 0x08 = some (-1) :=
  ⟨by decide, by decide,
    (armv7_pmu_hw_check_event_outcomes sample_chip [⟨2, 0x08⟩] 1 0x08 (by decide) (by decide)).1
      ⟨0, by decide, ⟨2, 0x08⟩, by decide, by decide⟩⟩

/-! ## Event description (`armv7_pmu_hw_get_event_desc`) -/

/-- The returned value of `armv7_pmu_hw_get_event_desc` with a supplied buffer, for every
`int` event `e`, with the catalogue condition as the code tests it. -/
theorem get_event_desc_found_iff_conv (MXSIZE_PMU_DESC : Nat) (c : chip_pmu)
    (i e : Int) (buf : Nat → Char) (hc : c.count ≤ c.desc.length) :
    ((∃ j, j < c.count ∧ ∃ d, c.desc[j]? = some d ∧ d.event = to_u32 e) →
      (armv7_pmu_hw_get_event_desc MXSIZE_PMU_DESC (some c) i e (some buf)).map Prod.fst
        = some 0) ∧
    ((armv7_pmu_hw_get_event_desc MXSIZE_PMU_DESC (some c) i e (some buf)).map Prod.fst
        = some (-1) ↔
      ¬ ∃ j, j < c.count ∧ ∃ d, c.desc[j]? = some d ∧ d.event = to_u32 e) ∧
    ((armv7_pmu_hw_get_event_desc MXSIZE_PMU_DESC (some c) i e (some buf)).map Prod.fst
        = some 0 ∨
      (armv7_pmu_hw_get_event_desc MXSIZE_PMU_DESC (some c) i e (some buf)).map Prod.fst
        = some (-1)) ∧
    ¬ ((armv7_pmu_hw_get_event_desc MXSIZE_PMU_DESC (some c) i e (some buf)).map Prod.fst
        = some 0 ∧
      (armv7_pmu_hw_get_event_desc MXSIZE_PMU_DESC (some c) i e (some buf)).map Prod.fst
        = some (-1)) ∧
    (∀ i2 : Int, armv7_pmu_hw_get_event_desc MXSIZE_PMU_DESC (some c) i2 e (some buf) =
      armv7_pmu_hw_get_event_desc MXSIZE_PMU_DESC (some c) i e (some buf)) ∧
    (∀ e2 : Int, (armv7_pmu_hw_get_event_desc MXSIZE_PMU_DESC (some chip_unknown) i e2
      (some buf)).map Prod.fst = some (-1)) := by
  have hnone := find?_take_eq_none_iff c e
  rw [get_event_desc_eq]
  refine ⟨?_, ?_, ?_, ?_, ?_, ?_⟩
  · intro hex
    cases hf : List.find? (fun d => decide (d.event = to_u32 e)) (List.take c.count c.desc) with
    | none => exact absurd hex (hnone.1 hf)
    | some d => rfl
  · cases hf : List.find? (fun d => decide (d.event = to_u32 e)) (List.take c.count c.desc) with
    | none => rw [if_pos hc]; exact ⟨fun _ => hnone.1 hf, fun _ => rfl⟩
    | some d =>
      simp only [Option.map_some']
      constructor
      · intro h; exact absurd h (by decide)
      · intro h; rw [hnone.2 h] at hf; exact absurd hf (by simp)
  · cases hf : List.find? (fun d => decide (d.event = to_u32 e)) (List.take c.count c.desc) with
    | none => right; rw [if_pos hc]; rfl
    | some d => left; rfl
  · rintro ⟨h0, h1⟩
    rw [h0] at h1
    exact absurd h1 (by decide)
  · intro i2; rw [get_event_desc_eq]
  · intro e2; rfl

/-- C2: for a supplied buffer and an active binding `c` whose first `count` descriptors
exist, `armv7_pmu_hw_get_event_desc` returns 0 if `e` is the event of one of
the first `count` descriptors, returns -1 if and only if `e` is absent from
them, returns one of the two values and never both, does not depend on its
first parameter `i`, and with the sentinel `chip_unknown` returns -1 for every
event.  The first two conjuncts cover every `int` value of `e`, with the
comparison of line 171 (`e` converted to `unsigned int`, so that `-1` matches
`0xFFFFFFFF`); the last conjunct states them for an event code, `0 <= e`,
where the comparison is equality of the values. -/
theorem armv7_pmu_hw_get_event_desc_found_iff (MXSIZE_PMU_DESC : Nat) (c : chip_pmu)
    (i e : Int) (buf : Nat → Char) (hc : c.count ≤ c.desc.length) :
    ((∃ j, j < c.count ∧ ∃ d, c.desc[j]? = some d ∧ d.event = to_u32 e) →
      (armv7_pmu_hw_get_event_desc MXSIZE_PMU_DESC (some c) i e (some buf)).map Prod.fst
        = some 0) ∧
    ((armv7_pmu_hw_get_event_desc MXSIZE_PMU_DESC (some c) i e (some buf)).map Prod.fst
        = some (-1) ↔
      ¬ ∃ j, j < c.count ∧ ∃ d, c.desc[j]? = some d ∧ d.event = to_u32 e) ∧
    ((armv7_pmu_hw_get_event_desc MXSIZE_PMU_DESC (some c) i e (some buf)).map Prod.fst
        = some 0 ∨
      (armv7_pmu_hw_get_event_desc MXSIZE_PMU_DESC (some c) i e (some buf)).map Prod.fst
        = some (-1)) ∧
    ¬ ((armv7_pmu_hw_get_event_desc MXSIZE_PMU_DESC (some c) i e (some buf)).map Prod.fst
        = some 0 ∧
      (armv7_pmu_hw_get_event_desc MXSIZE_PMU_DESC (some c) i e (some buf)).map Prod.fst
        = some (-1)) ∧
    (∀ i2 : Int, armv7_pmu_hw_get_event_desc MXSIZE_PMU_DESC (some c) i2 e (some buf) =
      armv7_pmu_hw_get_event_desc MXSIZE_PMU_DESC (some c) i e (some buf)) ∧
    (∀ e2 : Int, (armv7_pmu_hw_get_event_desc MXSIZE_PMU_DESC (some chip_unknown) i e2
      (some buf)).map Prod.fst = some (-1)) ∧
    (0 ≤ e →
      ((∃ j, j < c.count ∧ ∃ d, c.desc[j]? = some d ∧ (d.event : Int) = e) →
        (armv7_pmu_hw_get_event_desc MXSIZE_PMU_DESC (some c) i e (some buf)).map Prod.fst
          = some 0) ∧
      ((armv7_pmu_hw_get_event_desc MXSIZE_PMU_DESC (some c) i e (some buf)).map Prod.fst
          = some (-1) ↔
        ¬ ∃ j, j < c.count ∧ ∃ d, c.desc[j]? = some d ∧ (d.event : Int) = e)) := by
  obtain ⟨h1, h2, h3, h4, h5, h6⟩ :=
    get_event_desc_found_iff_conv MXSIZE_PMU_DESC c i e buf hc
  refine ⟨h1, h2, h3, h4, h5, h6, ?_⟩
  intro he
  rw [catalogue_match_nonneg c e he]
  exact ⟨h1, h2⟩

/-- Evaluation of C2: the event 0x08 is found in the sample catalogue, and the event -1
is found in the catalogue holding 0xFFFFFFFF. -/
theorem armv7_pmu_hw_get_event_desc_found_iff_witness :
    sample_chip.count ≤ sample_chip.desc.length ∧
    (armv7_pmu_hw_get_event_desc 8 (some sample_chip) 0 0x08 (some (fun _ => 'x'))).map
      Prod.fst = some 0 ∧
    sample_chip_high.count ≤ sample_chip_high.desc.length ∧
    (armv7_pmu_hw_get_event_desc 8 (some sample_chip_high) 0 (-1) (some (fun _ => 'x'))).map
      Prod.fst = some 0 :=
  ⟨by decide,
    (armv7_pmu_hw_get_event_desc_found_iff 8 sample_chip 0 0x08 (fun _ => 'x') (by decide)).1
      ⟨0, by decide, ⟨0x08, "INST_RETIRED".toList⟩, by decide, by decide⟩,
    by decide,
    (armv7_pmu_hw_get_event_desc_found_iff 8 sample_chip_high 0 (-1) (fun _ => 'x')
      (by decide)).1
      ⟨0, by decide, ⟨0xFFFFFFFF, "ALL_ONES".toList⟩, by decide, by decide⟩⟩

/-- The buffer after `armv7_pmu_hw_get_event_desc` has returned 0, for every `int` event
`e`, with the catalogue condition as the code tests it. -/
theorem get_event_desc_name_conv (MXSIZE_PMU_DESC : Nat) (c : chip_pmu) (i e : Int)
    (buf buf2 : Nat → Char) (hMX : 1 ≤ MXSIZE_PMU_DESC)
    (hret : armv7_pmu_hw_get_event_desc MXSIZE_PMU_DESC (some c) i e (some buf) =
      some (0, some buf2)) :
    ∃ j d, j < c.count ∧ c.desc[j]? = some d ∧ d.event = to_u32 e ∧
      (∀ j2, j2 < j → ∀ d2, c.desc[j2]? = some d2 → d2.event ≠ to_u32 e) ∧
      min (c_string d.name).length (MXSIZE_PMU_DESC - 1) + 1 ≤ MXSIZE_PMU_DESC ∧
      (∀ k, k < min (c_string d.name).length (MXSIZE_PMU_DESC - 1) →
        (c_string d.name)[k]? = some (buf2 k) ∧ buf2 k ≠ NUL) ∧
      buf2 (min (c_string d.name).length (MXSIZE_PMU_DESC - 1)) = NUL ∧
      (∀ k, MXSIZE_PMU_DESC ≤ k → buf2 k = buf k) := by
  rw [get_event_desc_eq] at hret
  cases hf : List.find? (fun d => decide (d.event = to_u32 e)) (List.take c.count c.desc) with
  | none =>
    rw [hf] at hret
    by_cases hc : c.count ≤ c.desc.length
    · simp [hc] at hret
    · simp [hc] at hret
  | some d =>
    rw [hf] at hret
    have hb : Function.update (strncpy buf d.name (MXSIZE_PMU_DESC - 1))
        (MXSIZE_PMU_DESC - 1) NUL = buf2 := by
      simpa using hret
    obtain ⟨hp, as, bs, hsplit, has⟩ := List.find?_eq_some.1 hf
    have hj : (List.take c.count c.desc)[as.length]? = some d := by
      rw [hsplit, List.getElem?_append_right (le_refl _)]; simp
    rw [List.getElem?_take] at hj
    have hjc : as.length < c.count := by
      by_contra hn; rw [if_neg hn] at hj; exact absurd hj (by simp)
    rw [if_pos hjc] at hj
    refine ⟨as.length, d, hjc, hj, by simpa using hp, ?_, ?_⟩
    · intro j2 hj2 d2 hget hde
      have h2 : (List.take c.count c.desc)[j2]? = some d2 := by
        rw [List.getElem?_take, if_pos (by omega)]; exact hget
      rw [hsplit, List.getElem?_append_left hj2] at h2
      have hmem : d2 ∈ as := List.mem_iff_getElem?.2 ⟨j2, h2⟩
      have := has d2 hmem
      simp [hde] at this
    · rw [← hb]
      exact written_buffer_spec MXSIZE_PMU_DESC buf d.name hMX

/-- C8: whenever `armv7_pmu_hw_get_event_desc` returns 0 (with `MXSIZE_PMU_DESC >= 1`),
the buffer holds the first `min(len(name), MXSIZE_PMU_DESC - 1)` characters of
the name of the lowest-index descriptor with event `e`, none of them NUL,
followed by a NUL; string and terminator fit in `MXSIZE_PMU_DESC` cells, and
no cell at offset `MXSIZE_PMU_DESC` or beyond is changed.  The descriptor is
the first whose event equals `e` under the comparison of line 171 (`e`
converted to `unsigned int`, so that `-1` finds `0xFFFFFFFF`); for an event
code, `0 <= e`, that is the first whose event has the value `e`. -/
theorem armv7_pmu_hw_get_event_desc_name (MXSIZE_PMU_DESC : Nat) (c : chip_pmu) (i e : Int)
    (buf buf2 : Nat → Char) (hMX : 1 ≤ MXSIZE_PMU_DESC)
    (hret : armv7_pmu_hw_get_event_desc MXSIZE_PMU_DESC (some c) i e (some buf) =
      some (0, some buf2)) :
    ∃ j d, j < c.count ∧ c.desc[j]? = some d ∧ d.event = to_u32 e ∧
      (∀ j2, j2 < j → ∀ d2, c.desc[j2]? = some d2 → d2.event ≠ to_u32 e) ∧
      (0 ≤ e → (d.event : Int) = e ∧
        ∀ j2, j2 < j → ∀ d2 : pmu_desc, c.desc[j2]? = some d2 → (d2.event : Int) ≠ e) ∧
      min (c_string d.name).length (MXSIZE_PMU_DESC - 1) + 1 ≤ MXSIZE_PMU_DESC ∧
      (∀ k, k < min (c_string d.name).length (MXSIZE_PMU_DESC - 1) →
        (c_string d.name)[k]? = some (buf2 k) ∧ buf2 k ≠ NUL) ∧
      buf2 (min (c_string d.name).length (MXSIZE_PMU_DESC - 1)) = NUL ∧
      (∀ k, MXSIZE_PMU_DESC ≤ k → buf2 k = buf k) := by
  obtain ⟨j, d, h1, h2, h3, h4, h5, h6, h7, h8⟩ :=
    get_event_desc_name_conv MXSIZE_PMU_DESC c i e buf buf2 hMX hret
  refine ⟨j, d, h1, h2, h3, h4, ?_, h5, h6, h7, h8⟩
  intro he
  refine ⟨(to_u32_nonneg e he d.event).1 h3, ?_⟩
  intro j2 hj2 d2 hget hde
  exact h4 j2 hj2 d2 hget ((to_u32_nonneg e he d2.event).2 hde)

/-- Evaluation of C8 with `MXSIZE_PMU_DESC = 8` on the catalogue holding 0xFFFFFFFF: the
event -1 finds that descriptor and its 8-character name is cut to its first 7
characters, followed by a NUL. -/
theorem armv7_pmu_hw_get_event_desc_name_witness :
    1 ≤ 8 ∧
    armv7_pmu_hw_get_event_desc 8 (some sample_chip_high) 0 (-1) (some (fun _ => 'x')) =
      some (0, some (Function.update (strncpy (fun _ => 'x') "ALL_ONES".toList (8 - 1))
        (8 - 1) NUL)) ∧
    ∃ j d, j < sample_chip_high.count ∧ sample_chip_high.desc[j]? = some d ∧
      d.event = to_u32 (-1) ∧ to_u32 (-1) = 0xFFFFFFFF ∧
      Function.update (strncpy (fun _ => 'x') "ALL_ONES".toList (8 - 1)) (8 - 1) NUL
        (min (c_string d.name).length (8 - 1)) = NUL :=
  ⟨by decide, rfl,
    match armv7_pmu_hw_get_event_desc_name 8 sample_chip_high 0 (-1) (fun _ => 'x')
      (Function.update (strncpy (fun _ => 'x') "ALL_ONES".toList (8 - 1)) (8 - 1) NUL)
      (by decide) rfl with
    | ⟨j, d, h1, h2, h3, _, _, _, _, h8, _⟩ => ⟨j, d, h1, h2, h3, by decide, h8⟩⟩

/-! ## Auxiliary facts on the register masks and on reset -/

theorem testBit_bit_of (i j : Nat) : (bit_of i).testBit j = true ↔ i = j ∧ j < 32 := by
  unfold bit_of
  rw [Nat.one_shiftLeft, Nat.testBit_mod_two_pow, Nat.testBit_two_pow]
  simp [and_comm]

theorem testBit_clear_bits (a v j : Nat) :
    (clear_bits a v).testBit j = true ↔ a.testBit j = true ∧ ¬ v.testBit j = true := by
  unfold clear_bits
  rw [Nat.testBit_xor, Nat.testBit_and]
  cases a.testBit j <;> cases v.testBit j <;> simp

theorem testBit_set_bits (a v j : Nat) :
    (a ||| v).testBit j = true ↔ a.testBit j = true ∨ v.testBit j = true := by
  rw [Nat.testBit_or]
  cases a.testBit j <;> cases v.testBit j <;> simp

theorem clear_bits_self (a : Nat) : clear_bits a a = 0 := by
  unfold clear_bits
  rw [Nat.and_self, Nat.xor_self]

/-- The registers other than the two enable masks are left alone by the loop of
`armv7_pmu_hw_reset_all`; in each mask exactly the bits `i .. i + n - 1` that
lie below 32 are cleared. -/
theorem reset_all_loop_spec : ∀ (n i : Nat) (s : pmu_regs),
    (reset_all_loop n i s).pmcr = s.pmcr ∧ (reset_all_loop n i s).ovsr = s.ovsr ∧
    (reset_all_loop n i s).evtyper = s.evtyper ∧ (reset_all_loop n i s).evcntr = s.evcntr ∧
    (reset_all_loop n i s).ccntr = s.ccntr ∧ (reset_all_loop n i s).midr = s.midr ∧
    (∀ j, (reset_all_loop n i s).cnten.testBit j = true ↔
      s.cnten.testBit j = true ∧ ¬ (i ≤ j ∧ j < i + n ∧ j < 32)) ∧
    (∀ j, (reset_all_loop n i s).inten.testBit j = true ↔
      s.inten.testBit j = true ∧ ¬ (i ≤ j ∧ j < i + n ∧ j < 32)) := by
  intro n
  induction n with
  | zero =>
    intro i s
    refine ⟨rfl, rfl, rfl, rfl, rfl, rfl, ?_, ?_⟩ <;> intro j <;> simp [reset_all_loop] <;> omega
  | succ n ih =>
    intro i s
    rw [reset_all_loop]
    obtain ⟨h1, h2, h3, h4, h5, h6, h8, h9⟩ :=
      ih (i + 1) (armv7_pmu_disable_count i (armv7_pmu_disable_intr i s))
    have harith : ∀ j, (i ≤ j ∧ j < i + (n + 1) ∧ j < 32) ↔
        ((i = j ∧ j < 32) ∨ (i + 1 ≤ j ∧ j < i + 1 + n ∧ j < 32)) := by
      intro j; omega
    refine ⟨h1, h2, h3, h4, h5, h6, ?_, ?_⟩
    · intro j
      rw [h8 j, harith j]
      have : (armv7_pmu_disable_count i (armv7_pmu_disable_intr i s)).cnten =
          clear_bits s.cnten (bit_of i) := rfl
      rw [this, testBit_clear_bits, testBit_bit_of]
      tauto
    · intro j
      rw [h9 j, harith j]
      have : (armv7_pmu_disable_count i (armv7_pmu_disable_intr i s)).inten =
          clear_bits s.inten (bit_of i) := rfl
      rw [this, testBit_clear_bits, testBit_bit_of]
      tauto

/-- The effect of `armv7_pmu_hw_reset_all` on the registers. -/
theorem reset_all_spec (g : Int) (s : pmu_regs) :
    (armv7_pmu_hw_reset_all g s).pmcr = (s.pmcr / 64) * 64 ∧
    (armv7_pmu_hw_reset_all g s).ovsr = 0 ∧
    (armv7_pmu_hw_reset_all g s).evtyper = s.evtyper ∧
    (armv7_pmu_hw_reset_all g s).midr = s.midr ∧
    (∀ j, (armv7_pmu_hw_reset_all g s).cnten.testBit j = true ↔
      s.cnten.testBit j = true ∧ ¬ ((j < g.toNat ∨ j = 31) ∧ j < 32)) ∧
    (∀ j, (armv7_pmu_hw_reset_all g s).inten.testBit j = true ↔
      s.inten.testBit j = true ∧ ¬ ((j < g.toNat ∨ j = 31) ∧ j < 32)) := by
  obtain ⟨h1, h2, h3, h4, h5, h6, h8, h9⟩ := reset_all_loop_spec g.toNat 0
    (armv7_pmu_control_write (ARMV7_PMCR_C ||| ARMV7_PMCR_P) s)
  have harith : ∀ j, ((j < g.toNat ∨ j = 31) ∧ j < 32) ↔
      ((0 ≤ j ∧ j < 0 + g.toNat ∧ j < 32) ∨ (31 = j ∧ j < 32)) := by
    intro j; omega
  refine ⟨?_, ?_, ?_, ?_, ?_, ?_⟩
  · show (reset_all_loop g.toNat 0 _).pmcr = _
    rw [h1]; rfl
  · show clear_bits (reset_all_loop g.toNat 0 _).ovsr (reset_all_loop g.toNat 0 _).ovsr = 0
    exact clear_bits_self _
  · show (reset_all_loop g.toNat 0 _).evtyper = _
    rw [h3]; rfl
  · show (reset_all_loop g.toNat 0 _).midr = _
    rw [h6]; rfl
  · intro j
    show (clear_bits (reset_all_loop g.toNat 0 _).cnten (bit_of 31)).testBit j = true ↔ _
    rw [testBit_clear_bits, testBit_bit_of, h8 j, harith j]
    have : (armv7_pmu_control_write (ARMV7_PMCR_C ||| ARMV7_PMCR_P) s).cnten = s.cnten := rfl
    rw [this]
    tauto
  · intro j
    show (clear_bits (reset_all_loop g.toNat 0 _).inten (bit_of 31)).testBit j = true ↔ _
    rw [testBit_clear_bits, testBit_bit_of, h9 j, harith j]
    have : (armv7_pmu_control_write (ARMV7_PMCR_C ||| ARMV7_PMCR_P) s).inten = s.inten := rfl
    rw [this]
    tauto

/-! ## Stop (`armv7_pmu_hw_stop`) -/

/-- C9, as stated, fails: with `count = 1` the loop of `armv7_pmu_hw_reset_all(0)` runs
no iteration, only index 31 is disabled, and a counter 0 that was enabled (with
its interrupt) before the call is still enabled after it. -/
theorem armv7_pmu_hw_stop_leaves_counter_enabled :
    (1 : Int) ≤ 1 ∧
    (armv7_pmu_hw_stop 1 { regs_zero with cnten := 1, inten := 1 }).cnten.testBit 0 = true ∧
    (armv7_pmu_hw_stop 1 { regs_zero with cnten := 1, inten := 1 }).inten.testBit 0 = true := by
  decide

/-- C9, amended: for every `count >= 1` and every prior register state, after
`armv7_pmu_hw_stop(count)` the count-enable and interrupt-enable bits of the
indices `0 .. count-2` and of index 31 are clear, the bits of every other index
keep their prior value, and the overflow flags are clear; so every enable bit
is clear whenever no enable bit of an index `count-1 .. 30` was set before. -/
theorem armv7_pmu_hw_stop_disables (count : Int) (s : pmu_regs) (hcount : 1 ≤ count) :
    (∀ j : Nat, j < 32 → ((j : Int) < count - 1 ∨ j = 31) →
      (armv7_pmu_hw_stop count s).cnten.testBit j = false ∧
      (armv7_pmu_hw_stop count s).inten.testBit j = false) ∧
    (∀ j : Nat, ¬ ((j : Int) < count - 1 ∨ j = 31) →
      (armv7_pmu_hw_stop count s).cnten.testBit j = s.cnten.testBit j ∧
      (armv7_pmu_hw_stop count s).inten.testBit j = s.inten.testBit j) ∧
    (armv7_pmu_hw_stop count s).ovsr = 0 ∧
    ((∀ j : Nat, j < 32 → ¬ ((j : Int) < count - 1 ∨ j = 31) →
        s.cnten.testBit j = false ∧ s.inten.testBit j = false) →
      ∀ j : Nat, j < 32 →
        (armv7_pmu_hw_stop count s).cnten.testBit j = false ∧
        (armv7_pmu_hw_stop count s).inten.testBit j = false) := by
  obtain ⟨_, hov, _, _, hc, hi⟩ := reset_all_spec (count - 1) s
  have hlt : ∀ j : Nat, j < (count - 1).toNat ↔ (j : Int) < count - 1 := fun j => Int.lt_toNat
  have hclr : ∀ j : Nat, j < 32 → ((j : Int) < count - 1 ∨ j = 31) →
      (armv7_pmu_hw_stop count s).cnten.testBit j = false ∧
      (armv7_pmu_hw_stop count s).inten.testBit j = false := by
    intro j hj hidx
    have hidx2 : (j < (count - 1).toNat ∨ j = 31) ∧ j < 32 := ⟨hidx.imp (hlt j).2 id, hj⟩
    constructor
    · rw [← Bool.not_eq_true]
      intro h
      exact ((hc j).1 h).2 hidx2
    · rw [← Bool.not_eq_true]
      intro h
      exact ((hi j).1 h).2 hidx2
  have hkeep : ∀ j : Nat, ¬ ((j : Int) < count - 1 ∨ j = 31) →
      (armv7_pmu_hw_stop count s).cnten.testBit j = s.cnten.testBit j ∧
      (armv7_pmu_hw_stop count s).inten.testBit j = s.inten.testBit j := by
    intro j hidx
    have hidx2 : ¬ ((j < (count - 1).toNat ∨ j = 31) ∧ j < 32) :=
      fun h => hidx (h.1.imp (hlt j).1 id)
    constructor
    · rw [Bool.eq_iff_iff]
      exact ⟨fun h => ((hc j).1 h).1, fun h => (hc j).2 ⟨h, hidx2⟩⟩
    · rw [Bool.eq_iff_iff]
      exact ⟨fun h => ((hi j).1 h).1, fun h => (hi j).2 ⟨h, hidx2⟩⟩
  refine ⟨hclr, hkeep, hov, ?_⟩
  intro hprior j hj
  by_cases hidx : (j : Int) < count - 1 ∨ j = 31
  · exact hclr j hj hidx
  · obtain ⟨h1, h2⟩ := hkeep j hidx
    obtain ⟨h3, h4⟩ := hprior j hj hidx
    exact ⟨h1.trans h3, h2.trans h4⟩

/-- Evaluation of the amended C9 at `count = 3` on a state with every counter enabled
and overflow flags 0 and 2 raised. -/
theorem armv7_pmu_hw_stop_disables_witness :
    (1 : Int) ≤ 3 ∧
    (armv7_pmu_hw_stop 3 { regs_zero with cnten := 0xffffffff, ovsr := 5 }).ovsr = 0 :=
  ⟨by decide,
    (armv7_pmu_hw_stop_disables 3 { regs_zero with cnten := 0xffffffff, ovsr := 5 }
      (by decide)).2.2.1⟩

/-- C10: for every `count` and every prior register state, a second
`armv7_pmu_hw_stop(count)` leaves the count-enable, interrupt-enable,
overflow-flag and control registers as the first one left them. -/
theorem armv7_pmu_hw_stop_idempotent (count : Int) (s : pmu_regs) :
    (armv7_pmu_hw_stop count (armv7_pmu_hw_stop count s)).cnten =
      (armv7_pmu_hw_stop count s).cnten ∧
    (armv7_pmu_hw_stop count (armv7_pmu_hw_stop count s)).inten =
      (armv7_pmu_hw_stop count s).inten ∧
    (armv7_pmu_hw_stop count (armv7_pmu_hw_stop count s)).ovsr =
      (armv7_pmu_hw_stop count s).ovsr ∧
    (armv7_pmu_hw_stop count (armv7_pmu_hw_stop count s)).pmcr =
      (armv7_pmu_hw_stop count s).pmcr := by
  obtain ⟨hp, hov, _, _, hc, hi⟩ := reset_all_spec (count - 1) s
  obtain ⟨hp2, hov2, _, _, hc2, hi2⟩ :=
    reset_all_spec (count - 1) (armv7_pmu_hw_reset_all (count - 1) s)
  unfold armv7_pmu_hw_stop
  refine ⟨?_, ?_, ?_, ?_⟩
  · apply Nat.eq_of_testBit_eq
    intro j
    rw [Bool.eq_iff_iff, hc2 j, hc j]
    tauto
  · apply Nat.eq_of_testBit_eq
    intro j
    rw [Bool.eq_iff_iff, hi2 j, hi j]
    tauto
  · rw [hov2, hov]
  · rw [hp2, hp, Nat.mul_div_cancel _ (by decide : 0 < 64)]

/-! ## Auxiliary facts on polling and start -/

theorem read_count_value (idx : Nat) (s : pmu_regs) :
    (armv7_pmu_read_count idx s).1 = if idx = 31 then s.ccntr else s.evcntr idx := by
  unfold armv7_pmu_read_count
  by_cases h : idx = 31
  · rw [if_pos h, if_pos h]; rfl
  · rw [if_neg h, if_neg h]; rfl

theorem read_count_keeps (idx : Nat) (s : pmu_regs) :
    (armv7_pmu_read_count idx s).2.evcntr = s.evcntr ∧
    (armv7_pmu_read_count idx s).2.ccntr = s.ccntr := by
  unfold armv7_pmu_read_count
  by_cases h : idx = 31
  · rw [if_pos h]; exact ⟨rfl, rfl⟩
  · rw [if_neg h]; exact ⟨rfl, rfl⟩

theorem is_polling_of_getElem (M : Nat) (pmu : List met_pmu) (i : Nat) (h : i < pmu.length) :
    is_polling M pmu i = decide (pmu[i].mode = M) := by
  unfold is_polling
  rw [List.getElem?_eq_getElem h]

theorem length_filter_range' (M : Nat) (pmu : List met_pmu) :
    ∀ n i, i + n ≤ pmu.length →
      ((List.range' i n).filter (is_polling M pmu)).length =
        ((pmu.drop i).take n).countP (fun slot => decide (slot.mode = M)) := by
  intro n
  induction n with
  | zero => intro i _; simp
  | succ n ih =>
    intro i hi
    have hlt : i < pmu.length := by omega
    rw [List.range'_succ, List.filter_cons, List.drop_eq_getElem_cons hlt, List.take_succ_cons,
      List.countP_cons, is_polling_of_getElem M pmu i hlt, ← ih (i + 1) (by omega)]
    by_cases hm : pmu[i].mode = M
    · simp [hm]
    · simp [hm]

theorem polling_loop_spec (M : Nat) (pmu : List met_pmu) :
    ∀ n i cnt (pv : Nat → Nat) (s : pmu_regs), i + n ≤ pmu.length →
      ∃ pv2 s2, polling_loop M pmu n i cnt pv s =
          some (cnt + ((List.range' i n).filter (is_polling M pmu)).length, pv2, s2) ∧
        s2.evcntr = s.evcntr ∧ s2.ccntr = s.ccntr ∧
        (∀ k, k < cnt → pv2 k = pv k) ∧
        (∀ k idx, ((List.range' i n).filter (is_polling M pmu))[k]? = some idx →
          pv2 (cnt + k) = if idx = 31 then s.ccntr else s.evcntr idx) := by
  intro n
  induction n with
  | zero =>
    intro i cnt pv s _
    exact ⟨pv, s, by simp [polling_loop], rfl, rfl, fun _ _ => rfl, by simp⟩
  | succ n ih =>
    intro i cnt pv s hi
    have hlt : i < pmu.length := by omega
    rw [polling_loop, List.getElem?_eq_getElem hlt, List.range'_succ, List.filter_cons,
      is_polling_of_getElem M pmu i hlt]
    by_cases hm : pmu[i].mode = M
    · simp only [hm, if_true, decide_True]
      obtain ⟨pv2, s2, heq, he, hc, hpre, hval⟩ :=
        ih (i + 1) (cnt + 1) (Function.update pv cnt (armv7_pmu_read_count i s).1)
          (armv7_pmu_read_count i s).2 (by omega)
      obtain ⟨hke, hkc⟩ := read_count_keeps i s
      refine ⟨pv2, s2, ?_, he.trans hke, hc.trans hkc, ?_, ?_⟩
      · rw [heq, List.length_cons]
        congr 2
        omega
      · intro k hk
        rw [hpre k (by omega), Function.update_noteq (by omega)]
      · intro k idx hget
        cases k with
        | zero =>
          simp only [List.getElem?_cons_zero, Option.some.injEq] at hget
          subst hget
          rw [Nat.add_zero, hpre cnt (by omega), Function.update_same, read_count_value]
        | succ k =>
          simp only [List.getElem?_cons_succ] at hget
          have := hval k idx hget
          rw [hke, hkc] at this
          rw [← this]
          congr 1
          omega
    · simp only [hm, if_false, decide_False]
      exact ih (i + 1) cnt pv s (by omega)

theorem polling_slots_length (M : Nat) (pmu : List met_pmu) :
    (polling_slots M pmu).length = pmu.countP (fun slot => decide (slot.mode = M)) := by
  unfold polling_slots
  rw [List.range_eq_range', length_filter_range' M pmu pmu.length 0 (by omega), List.drop_zero,
    List.take_length]

theorem is_polling_iff (M : Nat) (pmu : List met_pmu) (i : Nat) :
    is_polling M pmu i = true ↔ ∃ slot, pmu[i]? = some slot ∧ slot.mode = M := by
  unfold is_polling
  cases pmu[i]? with
  | none => simp
  | some slot => simp

theorem start_loop_spec (M : Nat) (pmu : List met_pmu) :
    ∀ n i (s : pmu_regs), i + n ≤ pmu.length →
      ∃ s2, start_loop M pmu n i s = some s2 ∧
        (∀ j, s2.cnten.testBit j = true ↔
          s.cnten.testBit j = true ∨ (i ≤ j ∧ j < i + n ∧ j < 32 ∧ is_polling M pmu j = true)) ∧
        (∀ j, j < i → s2.evtyper j = s.evtyper j) ∧
        (∀ j slot, i ≤ j → j < i + n → pmu[j]? = some slot → slot.mode = M →
          s2.evtyper j = slot.event % 2 ^ 32) := by
  intro n
  induction n with
  | zero =>
    intro i s _
    refine ⟨s, rfl, ?_, fun _ _ => rfl, ?_⟩
    · intro j; constructor
      · intro h; exact Or.inl h
      · rintro (h | h)
        · exact h
        · omega
    · intro j slot h1 h2; omega
  | succ n ih =>
    intro i s hi
    have hlt : i < pmu.length := by omega
    rw [start_loop, List.getElem?_eq_getElem hlt]
    have harith : ∀ j, (i ≤ j ∧ j < i + (n + 1) ∧ j < 32 ∧ is_polling M pmu j = true) ↔
        ((i = j ∧ j < 32 ∧ is_polling M pmu j = true) ∨
          (i + 1 ≤ j ∧ j < i + 1 + n ∧ j < 32 ∧ is_polling M pmu j = true)) := by
      intro j
      constructor
      · rintro ⟨h1, h2, h3, h4⟩
        by_cases hij : i = j
        · exact Or.inl ⟨hij, h3, h4⟩
        · exact Or.inr ⟨by omega, by omega, h3, h4⟩
      · rintro (⟨h1, h2, h3⟩ | ⟨h1, h2, h3, h4⟩)
        · exact ⟨by omega, by omega, h2, h3⟩
        · exact ⟨by omega, by omega, h3, h4⟩
    have hpi : is_polling M pmu i = true ↔ pmu[i].mode = M := by
      rw [is_polling_of_getElem M pmu i hlt]; simp
    by_cases hm : pmu[i].mode = M
    · simp only [if_pos hm]
      obtain ⟨s2, heq, hbits, hlow, hev⟩ := ih (i + 1)
        (armv7_pmu_enable_count i (armv7_pmu_type_select i (pmu[i].event % 2 ^ 32) s)) (by omega)
      have hcn : (armv7_pmu_enable_count i
          (armv7_pmu_type_select i (pmu[i].event % 2 ^ 32) s)).cnten = s.cnten ||| bit_of i := rfl
      have hty : (armv7_pmu_enable_count i
          (armv7_pmu_type_select i (pmu[i].event % 2 ^ 32) s)).evtyper =
            Function.update s.evtyper i (pmu[i].event % 2 ^ 32) := rfl
      refine ⟨s2, heq, ?_, ?_, ?_⟩
      · intro j
        rw [hbits j, hcn, testBit_set_bits, testBit_bit_of, harith j]
        constructor
        · rintro ((h | ⟨h1, h2⟩) | h)
          · exact Or.inl h
          · exact Or.inr (Or.inl ⟨h1, h2, by rw [← h1]; exact hpi.2 hm⟩)
          · exact Or.inr (Or.inr h)
        · rintro (h | ⟨h1, h2, _⟩ | h)
          · exact Or.inl (Or.inl h)
          · exact Or.inl (Or.inr ⟨h1, h2⟩)
          · exact Or.inr h
      · intro j hj
        rw [hlow j (by omega), hty, Function.update_noteq (by omega)]
      · intro j slot h1 h2 hget hmode
        by_cases hij : i = j
        · subst hij
          rw [List.getElem?_eq_getElem hlt] at hget
          simp only [Option.some.injEq] at hget
          rw [hlow i (by omega), hty, Function.update_same, hget]
        · exact hev j slot (by omega) (by omega) hget hmode
    · simp only [if_neg hm]
      obtain ⟨s2, heq, hbits, hlow, hev⟩ := ih (i + 1) s (by omega)
      refine ⟨s2, heq, ?_, ?_, ?_⟩
      · intro j
        rw [hbits j, harith j]
        constructor
        · rintro (h | h)
          · exact Or.inl h
          · exact Or.inr (Or.inr h)
        · rintro (h | ⟨h1, _, h3⟩ | h)
          · exact Or.inl h
          · rw [← h1] at h3; exact absurd (hpi.1 h3) hm
          · exact Or.inr h
      · intro j hj
        exact hlow j (by omega)
      · intro j slot h1 h2 hget hmode
        by_cases hij : i = j
        · subst hij
          rw [List.getElem?_eq_getElem hlt] at hget
          simp only [Option.some.injEq] at hget
          rw [← hget] at hmode
          exact absurd hmode hm
        · exact hev j slot (by omega) (by omega) hget hmode

theorem control_write_trace (v : Nat) (s : pmu_regs) :
    (armv7_pmu_control_write v s).trace =
      s.trace ++ [access.isb] ++ [access.mcr cp15.PMCR (v &&& ARMV7_PMCR_MASK)] := rfl

/-! ## Polling (`armv7_pmu_hw_polling`) and start (`armv7_pmu_hw_start`) -/

/-- C3: for every `count >= 1` and slot array of length `count`, `armv7_pmu_hw_polling`
returns the number of slots whose mode is `MODE_POLLING`, and `pmu_value[k]` is
the value read for the k-th polling-mode slot in slot order: counter `i` for a
generic slot `i < count - 1`, counter 31 (the cycle counter) for the final
slot; a read of counter 31 gives the cycle count, a read of any other counter
the event count of that counter. -/
theorem armv7_pmu_hw_polling_values (MODE_POLLING : Nat) (pmu : List met_pmu) (count : Int)
    (pmu_value : Nat → Nat) (s : pmu_regs) (hcount : 1 ≤ count)
    (hlen : (pmu.length : Int) = count) :
    ∃ pv2 s2,
      armv7_pmu_hw_polling MODE_POLLING pmu count pmu_value s =
        some (pmu.countP (fun slot => decide (slot.mode = MODE_POLLING)), pv2, s2) ∧
      (polling_slots MODE_POLLING pmu).length =
        pmu.countP (fun slot => decide (slot.mode = MODE_POLLING)) ∧
      (∀ (k i : Nat), (polling_slots MODE_POLLING pmu)[k]? = some i →
        pv2 k = (armv7_pmu_read_count (if i + 1 = pmu.length then 31 else i) s).1) ∧
      (∀ idx, (armv7_pmu_read_count idx s).1 = if idx = 31 then s.ccntr else s.evcntr idx) := by
  obtain ⟨m, hm⟩ : ∃ m, pmu.length = m + 1 := ⟨pmu.length - 1, by omega⟩
  have hg : (count - 1).toNat = m := by omega
  have hmlt : m < pmu.length := by omega
  obtain ⟨pv1, s1, heq, he, hc, _, hval⟩ :=
    polling_loop_spec MODE_POLLING pmu m 0 0 pmu_value s (by omega)
  have hslot : slot_at pmu (count - 1) = some pmu[m] := by
    unfold slot_at
    rw [if_neg (by omega), hg, List.getElem?_eq_getElem hmlt]
  have hsplit : polling_slots MODE_POLLING pmu =
      (List.range' 0 m).filter (is_polling MODE_POLLING pmu) ++
        (if pmu[m].mode = MODE_POLLING then [m] else []) := by
    unfold polling_slots
    rw [hm, List.range_succ, List.filter_append, List.range_eq_range', List.filter_cons,
      is_polling_of_getElem MODE_POLLING pmu m hmlt]
    by_cases h : pmu[m].mode = MODE_POLLING <;> simp [h]
  have hbound : ∀ (k i : Nat), ((List.range' 0 m).filter (is_polling MODE_POLLING pmu))[k]? = some i →
      i < m := by
    intro k i hget
    have hmem := List.mem_iff_getElem?.2 ⟨k, hget⟩
    obtain ⟨j, hj, hij⟩ := List.mem_range'.1 (List.mem_filter.1 hmem).1
    omega
  have hcnt := polling_slots_length MODE_POLLING pmu
  rw [hsplit] at hcnt
  simp only [Nat.zero_add] at heq hval
  unfold armv7_pmu_hw_polling
  simp only [hg, heq, hslot]
  by_cases hlast : pmu[m].mode = MODE_POLLING
  · rw [if_pos hlast] at hcnt hsplit
    rw [if_pos hlast]
    rw [List.length_append, List.length_singleton] at hcnt
    refine ⟨_, _, by rw [hcnt], polling_slots_length MODE_POLLING pmu, ?_, fun idx => read_count_value idx s⟩
    intro k i hget
    rw [hsplit] at hget
    by_cases hk : k < ((List.range' 0 m).filter (is_polling MODE_POLLING pmu)).length
    · rw [List.getElem?_append_left hk] at hget
      have hi := hbound k i hget
      have hne : ¬ (i + 1 = pmu.length) := by omega
      rw [if_neg hne, Function.update_noteq (Nat.ne_of_lt hk), hval k i hget]
      exact (read_count_value i s).symm
    · rw [List.getElem?_append_right (by omega)] at hget
      have hk0 : k - ((List.range' 0 m).filter (is_polling MODE_POLLING pmu)).length = 0 := by
        by_contra hne
        obtain ⟨j, hj⟩ := Nat.exists_eq_succ_of_ne_zero hne
        rw [hj] at hget
        simp at hget
      rw [hk0] at hget
      simp only [List.getElem?_cons_zero, Option.some.injEq] at hget
      have hkeq : k = ((List.range' 0 m).filter (is_polling MODE_POLLING pmu)).length := by
        omega
      subst hget
      rw [hkeq, Function.update_same, if_pos hm.symm, read_count_value, read_count_value,
        if_pos rfl, if_pos rfl, hc]
  · rw [if_neg hlast] at hcnt hsplit
    rw [if_neg hlast]
    rw [List.append_nil] at hcnt hsplit
    refine ⟨_, _, by rw [hcnt], polling_slots_length MODE_POLLING pmu, ?_, fun idx => read_count_value idx s⟩
    intro k i hget
    rw [hsplit] at hget
    have hi := hbound k i hget
    have hne : ¬ (i + 1 = pmu.length) := by omega
    rw [if_neg hne, hval k i hget]
    exact (read_count_value i s).symm

/-- Evaluation of C3 on the five-slot scenario: three values are returned, read from
counter 0, counter 2 and the cycle counter, in that order. -/
theorem armv7_pmu_hw_polling_values_witness :
    (1 : Int) ≤ 5 ∧ ((sample_slots.length : Int) = 5) ∧
    ∃ pv2 s2, armv7_pmu_hw_polling 2 sample_slots 5 (fun _ => 0) sample_regs =
        some (3, pv2, s2) ∧
      pv2 0 = 100 ∧ pv2 1 = 102 ∧ pv2 2 = 7 :=
  ⟨by decide, by decide,
    match armv7_pmu_hw_polling_values 2 sample_slots 5 (fun _ => 0) sample_regs
      (by decide) (by decide) with
    | ⟨pv2, s2, h1, _, h3, _⟩ =>
      ⟨pv2, s2, h1, h3 0 0 (by decide), h3 1 2 (by decide), h3 2 4 (by decide)⟩⟩

/-- C4: for `1 <= count <= 32`, a slot array of length `count` (event fields within 32
bits) and every prior register state, after `armv7_pmu_hw_start`: for each
generic index `i < count - 1` the count-enable bit `i` is set iff slot `i` is in
polling mode, and then the event type register of counter `i` holds the
event of the slot as given; count-enable bit 31 is set iff the last slot is in
polling mode; and the last instruction executed is the write of 0x1 (Enable
only) to the control register.  The function takes no catalogue, so nothing
is validated. -/
theorem armv7_pmu_hw_start_programs (MODE_POLLING : Nat) (pmu : List met_pmu) (count : Int)
    (s : pmu_regs) (hcount : 1 ≤ count) (h32 : count ≤ 32)
    (hlen : (pmu.length : Int) = count) (hev : ∀ slot ∈ pmu, slot.event < 2 ^ 32) :
    ∃ s2, armv7_pmu_hw_start MODE_POLLING pmu count s = some s2 ∧
      (∀ (i : Nat) (slot : met_pmu), (i : Int) < count - 1 → pmu[i]? = some slot →
        (s2.cnten.testBit i = true ↔ slot.mode = MODE_POLLING) ∧
        (slot.mode = MODE_POLLING → s2.evtyper i = slot.event)) ∧
      (∀ last : met_pmu, pmu[pmu.length - 1]? = some last →
        (s2.cnten.testBit 31 = true ↔ last.mode = MODE_POLLING)) ∧
      s2.trace.getLast? = some (access.mcr cp15.PMCR 1) := by
  obtain ⟨m, hm⟩ : ∃ m, pmu.length = m + 1 := ⟨pmu.length - 1, by omega⟩
  have hg : (count - 1).toNat = m := by omega
  have hmlt : m < pmu.length := by omega
  have hm31 : m ≤ 31 := by omega
  obtain ⟨_, _, hrty, _, hrc, _⟩ := reset_all_spec (count - 1) s
  obtain ⟨s1, heq, hbits, _, hty⟩ :=
    start_loop_spec MODE_POLLING pmu m 0 (armv7_pmu_hw_reset_all (count - 1) s) (by omega)
  have hslot : slot_at pmu (count - 1) = some pmu[m] := by
    unfold slot_at
    rw [if_neg (by omega), hg, List.getElem?_eq_getElem hmlt]
  unfold armv7_pmu_hw_start
  simp only [hg, heq, hslot]
  refine ⟨_, rfl, ?_, ?_, ?_⟩
  · intro i slot hi hget
    have him : i < m := by omega
    have hpol : is_polling MODE_POLLING pmu i = true ↔ slot.mode = MODE_POLLING := by
      rw [is_polling_iff]
      constructor
      · rintro ⟨sl, h1, h2⟩
        rw [hget] at h1
        simp only [Option.some.injEq] at h1
        rw [h1]; exact h2
      · intro h; exact ⟨slot, hget, h⟩
    have hs1 : s1.cnten.testBit i = true ↔ slot.mode = MODE_POLLING := by
      rw [hbits i, hrc i, hg, ← hpol]
      constructor
      · rintro (⟨_, h⟩ | ⟨_, _, _, h⟩)
        · exact absurd ⟨Or.inl him, by omega⟩ h
        · exact h
      · intro h; exact Or.inr ⟨by omega, by omega, by omega, h⟩
    constructor
    · by_cases hlast : pmu[m].mode = MODE_POLLING
      · rw [if_pos hlast]
        show ((s1.cnten ||| bit_of 31).testBit i = true ↔ _)
        rw [testBit_set_bits, testBit_bit_of, hs1]
        constructor
        · rintro (h | ⟨h, _⟩)
          · exact h
          · omega
        · intro h; exact Or.inl h
      · rw [if_neg hlast]
        exact hs1
    · intro hmode
      have hev1 := hty i slot (by omega) (by omega) hget hmode
      have hlt32 : slot.event < 2 ^ 32 := hev slot (List.mem_iff_getElem?.2 ⟨i, hget⟩)
      rw [Nat.mod_eq_of_lt hlt32] at hev1
      by_cases hlast : pmu[m].mode = MODE_POLLING
      · rw [if_pos hlast]; exact hev1
      · rw [if_neg hlast]; exact hev1
  · intro last hget
    have hidx : pmu.length - 1 = m := by omega
    rw [hidx, List.getElem?_eq_getElem hmlt] at hget
    simp only [Option.some.injEq] at hget
    have hs1 : ¬ s1.cnten.testBit 31 = true := by
      rw [hbits 31, hrc 31]
      rintro (⟨_, h⟩ | ⟨_, h, _⟩)
      · exact h ⟨Or.inr rfl, by omega⟩
      · omega
    rw [← hget]
    by_cases hlast : pmu[m].mode = MODE_POLLING
    · rw [if_pos hlast]
      show ((s1.cnten ||| bit_of 31).testBit 31 = true ↔ _)
      rw [testBit_set_bits, testBit_bit_of]
      exact ⟨fun _ => hlast, fun _ => Or.inr ⟨rfl, by omega⟩⟩
    · rw [if_neg hlast]
      exact ⟨fun h => absurd h hs1, fun h => absurd h hlast⟩
  · rw [control_write_trace, List.getLast?_concat]
    rfl

/-- Evaluation of C4 on the five-slot scenario. -/
theorem armv7_pmu_hw_start_programs_witness :
    (1 : Int) ≤ 5 ∧ (5 : Int) ≤ 32 ∧ ((sample_slots.length : Int) = 5) ∧
    (∀ slot ∈ sample_slots, slot.event < 2 ^ 32) ∧
    ∃ s2, armv7_pmu_hw_start 2 sample_slots 5 sample_regs = some s2 ∧
      s2.evtyper 2 = 0x11 ∧ s2.trace.getLast? = some (access.mcr cp15.PMCR 1) :=
  ⟨by decide, by decide, by decide, by decide,
    match armv7_pmu_hw_start_programs 2 sample_slots 5 sample_regs
      (by decide) (by decide) (by decide) (by decide) with
    | ⟨s2, h1, h2, _, h4⟩ => ⟨s2, h1, (h2 2 ⟨2, 0x11⟩ (by decide) (by decide)).2 rfl, h4⟩⟩

/-! ## Auxiliary facts on the init entry -/

theorem init_of_bound (T : pmu_name_tables) (v6 : Nat → cpu_pmu_hw_ptr) (d : driver)
    (c : chip_pmu) (h : init_loop (armv7_get_ic d.regs).1 (chips T) d.chip = some c) :
    (cpu_pmu_hw_init T v6 d).1 = cpu_pmu_hw_ptr.armv7_pmu ∧
    (cpu_pmu_hw_init T v6 d).2.chip = some c ∧
    (cpu_pmu_hw_init T v6 d).2.armv7_pmu.cpu_name = some c.cpu_name ∧
    (cpu_pmu_hw_init T v6 d).2.armv7_pmu.nr_cnt = (armv7_pmu_hw_get_counters d.regs).1 + 1 ∧
    (cpu_pmu_hw_init T v6 d).2.armv7_pmu.name = d.armv7_pmu.name ∧
    (cpu_pmu_hw_init T v6 d).2.v6_calls = d.v6_calls := by
  have h2 : init_loop ((d.regs.midr &&& 0xffff) >>> 4) (chips T) d.chip = some c := h
  simp [cpu_pmu_hw_init, armv7_get_ic, mrc, reg_value, h2, armv7_pmu_hw_get_counters,
    armv7_pmu_control_read]

theorem init_of_unbound (T : pmu_name_tables) (v6 : Nat → cpu_pmu_hw_ptr) (d : driver)
    (h : init_loop (armv7_get_ic d.regs).1 (chips T) d.chip = none) :
    (cpu_pmu_hw_init T v6 d).1 = v6 (armv7_get_ic d.regs).1 ∧
    (cpu_pmu_hw_init T v6 d).2.chip =
      (if v6 (armv7_get_ic d.regs).1 = cpu_pmu_hw_ptr.NULL then some chip_unknown else none) ∧
    (cpu_pmu_hw_init T v6 d).2.armv7_pmu = d.armv7_pmu ∧
    (cpu_pmu_hw_init T v6 d).2.v6_calls = d.v6_calls ++ [(armv7_get_ic d.regs).1] := by
  have h2 : init_loop ((d.regs.midr &&& 0xffff) >>> 4) (chips T) d.chip = none := h
  by_cases hv : v6 ((d.regs.midr &&& 0xffff) >>> 4) = cpu_pmu_hw_ptr.NULL
  · simp [cpu_pmu_hw_init, armv7_get_ic, mrc, reg_value, h2, hv]
  · simp [cpu_pmu_hw_init, armv7_get_ic, mrc, reg_value, h2, hv]

theorem init_loop_of_no_match (type : Nat) (chip : Option chip_pmu) :
    ∀ l : List chip_pmu, (∀ c ∈ l, c.type ≠ type) → init_loop type l chip = chip := by
  intro l
  induction l with
  | nil => intro _; rfl
  | cons c rest ih =>
    intro h
    rw [init_loop, if_neg (h c (List.mem_cons_self _ _))]
    exact ih (fun c2 hc2 => h c2 (List.mem_cons_of_mem _ hc2))

theorem init_loop_of_unique (type : Nat) (chip : Option chip_pmu) (c : chip_pmu) :
    ∀ l : List chip_pmu, c ∈ l → c.type = type → (∀ c2 ∈ l, c2.type = type → c2 = c) →
      init_loop type l chip = some c := by
  intro l
  induction l with
  | nil => intro h; exact absurd h (List.not_mem_nil _)
  | cons c0 rest ih =>
    intro hmem htype huniq
    rw [init_loop]
    by_cases h0 : c0.type = type
    · rw [if_pos h0, huniq c0 (List.mem_cons_self _ _) h0]
    · rw [if_neg h0]
      have hrest : c ∈ rest := by
        rcases List.mem_cons.1 hmem with h | h
        · rw [h] at htype; exact absurd htype h0
        · exact h
      exact ih hrest htype (fun c2 hc2 => huniq c2 (List.mem_cons_of_mem _ hc2))

theorem chips_types (T : pmu_name_tables) :
    (chips T).map chip_pmu.type = [0xC07, 0xC09, 0xC0D, 0xC0F, 0xC0E, 0xD03, 0xD07] := rfl

theorem chips_entry (T : pmu_name_tables) (id : Nat)
    (hid : id ∈ [0xC07, 0xC09, 0xC0D, 0xC0F, 0xC0E, 0xD03, 0xD07]) :
    ∃ c, c ∈ chips T ∧ c.type = id ∧ ∀ c2 ∈ chips T, c2.type = id → c2 = c := by
  have hnodup : ((chips T).map chip_pmu.type).Nodup := by rw [chips_types]; decide
  rw [← chips_types T] at hid
  obtain ⟨c, hc, hct⟩ := List.mem_map.1 hid
  refine ⟨c, hc, hct, ?_⟩
  intro c2 hc2 hc2t
  exact List.inj_on_of_nodup_map hnodup hc2 hc (hc2t.trans hct.symm)

/-! ## Init entry (`cpu_pmu_hw_init`) -/

/-- C5: the table `chips` lists the seven identifiers 0xC07, 0xC09, 0xC0D, 0xC0F, 0xC0E,
0xD03, 0xD07, pairwise distinct; when the detector returns one of them and the
binding is unset on entry, `cpu_pmu_hw_init` returns the address of
`armv7_pmu`, binds the one table entry of that type, sets `cpu_name` to the
name of that entry and `nr_cnt` to the hardware counter count plus 1, and
makes no call to `v6_cpu_pmu_hw_init`. -/
theorem cpu_pmu_hw_init_binds (T : pmu_name_tables)
    (v6_cpu_pmu_hw_init : Nat → cpu_pmu_hw_ptr) (d : driver) (id : Nat)
    (hid : id ∈ [0xC07, 0xC09, 0xC0D, 0xC0F, 0xC0E, 0xD03, 0xD07])
    (hdet : (armv7_get_ic d.regs).1 = id) (hfresh : d.chip = none) :
    (chips T).map chip_pmu.type = [0xC07, 0xC09, 0xC0D, 0xC0F, 0xC0E, 0xD03, 0xD07] ∧
    ((chips T).map chip_pmu.type).Nodup ∧
    ∃ c, c ∈ chips T ∧ c.type = id ∧ (∀ c2 ∈ chips T, c2.type = id → c2 = c) ∧
      (cpu_pmu_hw_init T v6_cpu_pmu_hw_init d).1 = cpu_pmu_hw_ptr.armv7_pmu ∧
      (cpu_pmu_hw_init T v6_cpu_pmu_hw_init d).2.chip = some c ∧
      (cpu_pmu_hw_init T v6_cpu_pmu_hw_init d).2.armv7_pmu.cpu_name = some c.cpu_name ∧
      (cpu_pmu_hw_init T v6_cpu_pmu_hw_init d).2.armv7_pmu.nr_cnt =
        (armv7_pmu_hw_get_counters d.regs).1 + 1 ∧
      (cpu_pmu_hw_init T v6_cpu_pmu_hw_init d).2.v6_calls = d.v6_calls := by
  refine ⟨chips_types T, by rw [chips_types]; decide, ?_⟩
  obtain ⟨c, hc, hct, huniq⟩ := chips_entry T id hid
  have hloop : init_loop (armv7_get_ic d.regs).1 (chips T) d.chip = some c := by
    rw [hdet]
    exact init_loop_of_unique id d.chip c (chips T) hc hct huniq
  obtain ⟨h1, h2, h3, h4, _, h6⟩ := init_of_bound T v6_cpu_pmu_hw_init d c hloop
  exact ⟨c, hc, hct, huniq, h1, h2, h3, h4, h6⟩

/-- Evaluation of C5 on a Cortex-A7 core with 6 generic counters: the entry named
"Cortex-A7" is bound and `nr_cnt` is 7. -/
theorem cpu_pmu_hw_init_binds_witness :
    0xC07 ∈ [0xC07, 0xC09, 0xC0D, 0xC0F, 0xC0E, 0xD03, 0xD07] ∧
    (armv7_get_ic sample_driver.regs).1 = 0xC07 ∧ sample_driver.chip = none ∧
    ∃ c, c ∈ chips sample_tables ∧ c.type = 0xC07 ∧
      (cpu_pmu_hw_init sample_tables (fun _ => cpu_pmu_hw_ptr.NULL) sample_driver).2.chip
        = some c ∧
      (cpu_pmu_hw_init sample_tables
        (fun _ => cpu_pmu_hw_ptr.NULL) sample_driver).2.armv7_pmu.nr_cnt = 7 :=
  ⟨by decide, by decide, rfl,
    match cpu_pmu_hw_init_binds sample_tables (fun _ => cpu_pmu_hw_ptr.NULL) sample_driver 0xC07
      (by decide) (by decide) rfl with
    | ⟨_, _, c, h1, h2, _, _, h5, _, h7, _⟩ => ⟨c, h1, h2, h5, h7⟩⟩

/-- C6: when the detected identifier matches no entry of `chips` and the legacy init,
consulted by this call, returns no handle, `cpu_pmu_hw_init` returns null and
leaves the binding set to the sentinel `chip_unknown` (type 0xFFF, no
descriptors, count 0, name "Unknown CPU").  The legacy init is consulted only
when no binding was active on entry, which the last conjunct records. -/
theorem cpu_pmu_hw_init_unknown (T : pmu_name_tables)
    (v6_cpu_pmu_hw_init : Nat → cpu_pmu_hw_ptr) (d : driver)
    (hno : ∀ c ∈ chips T, c.type ≠ (armv7_get_ic d.regs).1)
    (hcalled : (cpu_pmu_hw_init T v6_cpu_pmu_hw_init d).2.v6_calls =
      d.v6_calls ++ [(armv7_get_ic d.regs).1])
    (hnull : v6_cpu_pmu_hw_init (armv7_get_ic d.regs).1 = cpu_pmu_hw_ptr.NULL) :
    (cpu_pmu_hw_init T v6_cpu_pmu_hw_init d).1 = cpu_pmu_hw_ptr.NULL ∧
    (cpu_pmu_hw_init T v6_cpu_pmu_hw_init d).2.chip = some chip_unknown ∧
    chip_unknown = ⟨0xFFF, [], 0, "Unknown CPU"⟩ ∧
    d.chip = none := by
  have hloop := init_loop_of_no_match (armv7_get_ic d.regs).1 d.chip (chips T) hno
  have hentry : d.chip = none := by
    cases hchip : d.chip with
    | none => rfl
    | some c0 =>
      obtain ⟨_, _, _, _, _, h6⟩ :=
        init_of_bound T v6_cpu_pmu_hw_init d c0 (hloop.trans hchip)
      rw [h6] at hcalled
      have := congrArg List.length hcalled
      simp at this
  obtain ⟨h1, h2, _, _⟩ := init_of_unbound T v6_cpu_pmu_hw_init d (hloop.trans hentry)
  rw [hnull] at h1
  rw [if_pos hnull] at h2
  exact ⟨h1, h2, rfl, hentry⟩

/-- Evaluation of C6 on a core with part number 0xB76 and a legacy init that knows
no core. -/
theorem cpu_pmu_hw_init_unknown_witness :
    (∀ c ∈ chips sample_tables, c.type ≠ (armv7_get_ic sample_driver_other_cpu.regs).1) ∧
    (cpu_pmu_hw_init sample_tables (fun _ => cpu_pmu_hw_ptr.NULL)
      sample_driver_other_cpu).2.v6_calls =
        sample_driver_other_cpu.v6_calls ++ [(armv7_get_ic sample_driver_other_cpu.regs).1] ∧
    (fun _ => cpu_pmu_hw_ptr.NULL : Nat → cpu_pmu_hw_ptr)
      (armv7_get_ic sample_driver_other_cpu.regs).1 = cpu_pmu_hw_ptr.NULL ∧
    (cpu_pmu_hw_init sample_tables (fun _ => cpu_pmu_hw_ptr.NULL)
      sample_driver_other_cpu).1 = cpu_pmu_hw_ptr.NULL ∧
    (cpu_pmu_hw_init sample_tables (fun _ => cpu_pmu_hw_ptr.NULL)
      sample_driver_other_cpu).2.chip = some chip_unknown :=
  ⟨by decide, by decide, rfl,
    (cpu_pmu_hw_init_unknown sample_tables (fun _ => cpu_pmu_hw_ptr.NULL)
      sample_driver_other_cpu (by decide) (by decide) rfl).1,
    (cpu_pmu_hw_init_unknown sample_tables (fun _ => cpu_pmu_hw_ptr.NULL)
      sample_driver_other_cpu (by decide) (by decide) rfl).2.1⟩

/-! ## Auxiliary facts on the two field extractions -/

theorem get_counters_value (s : pmu_regs) (h32 : s.pmcr < 2 ^ 32) :
    (armv7_pmu_hw_get_counters s).1 = (((s.pmcr / 2 ^ 11) % 32 : Nat) : Int) := by
  show (to_int32 s.pmcr >>> ARMV7_PMCR_N_SHIFT) % ((ARMV7_PMCR_N_MASK : Int) + 1) = _
  rw [Int.shiftRight_eq_div_pow]
  unfold to_int32 ARMV7_PMCR_N_SHIFT ARMV7_PMCR_N_MASK
  rw [Nat.mod_eq_of_lt h32]
  norm_num at h32 ⊢
  split <;> omega

theorem get_ic_value (s : pmu_regs) :
    (armv7_get_ic s).1 = (s.midr % 2 ^ 16) / 16 := by
  show (s.midr &&& 0xffff) >>> 4 = _
  rw [Nat.shiftRight_eq_div_pow, show (0xffff : Nat) = 2 ^ 16 - 1 by norm_num,
    Nat.and_pow_two_sub_one_eq_mod]


/-! ## Hardware counter count, null buffer, detector -/

/-- C11: for every 32-bit value `v` of the control register, also with bit 31 set (the
value is held in an `int` before the shift), `armv7_pmu_hw_get_counters`
returns the field `v[15:11]`, that is `(v / 2^11) mod 32`; the result lies in
`0 .. 31`, and the `nr_cnt` that `cpu_pmu_hw_init` derives from it when it
binds a chip lies in `1 .. 32`. -/
theorem armv7_pmu_hw_get_counters_field (s : pmu_regs) (h32 : s.pmcr < 2 ^ 32) :
    (armv7_pmu_hw_get_counters s).1 = (((s.pmcr / 2 ^ 11) % 32 : Nat) : Int) ∧
    0 ≤ (armv7_pmu_hw_get_counters s).1 ∧ (armv7_pmu_hw_get_counters s).1 ≤ 31 ∧
    (∀ (T : pmu_name_tables) (v6_cpu_pmu_hw_init : Nat → cpu_pmu_hw_ptr) (d : driver)
        (c : chip_pmu), d.regs = s →
      init_loop (armv7_get_ic d.regs).1 (chips T) d.chip = some c →
      1 ≤ (cpu_pmu_hw_init T v6_cpu_pmu_hw_init d).2.armv7_pmu.nr_cnt ∧
      (cpu_pmu_hw_init T v6_cpu_pmu_hw_init d).2.armv7_pmu.nr_cnt ≤ 32) := by
  have hv := get_counters_value s h32
  have hlt : (s.pmcr / 2 ^ 11) % 32 < 32 := Nat.mod_lt _ (by decide)
  refine ⟨hv, by rw [hv]; omega, by rw [hv]; omega, ?_⟩
  intro T v6 d c hd hloop
  obtain ⟨_, _, _, h4, _, _⟩ := init_of_bound T v6 d c hloop
  rw [h4, hd, hv]
  omega

/-- Evaluation of C11 on a control register value with bit 31 set and field 21. -/
theorem armv7_pmu_hw_get_counters_field_witness :
    sample_regs_high.pmcr < 2 ^ 32 ∧ (armv7_pmu_hw_get_counters sample_regs_high).1 = 21 :=
  ⟨by decide, (armv7_pmu_hw_get_counters_field sample_regs_high (by decide)).1⟩

/-- C12: when `event_desc` is null, `armv7_pmu_hw_get_event_desc` returns -1 for every
event code, also for the event 0x08 that the sample catalogue holds, and
whatever the binding is: the result is the same with a null `chip` pointer,
where any read of the catalogue would fail, so the catalogue is not read. -/
theorem armv7_pmu_hw_get_event_desc_null (MXSIZE_PMU_DESC : Nat) (chip : Option chip_pmu)
    (i e : Int) :
    armv7_pmu_hw_get_event_desc MXSIZE_PMU_DESC chip i e none = some (-1, none) ∧
    armv7_pmu_hw_get_event_desc MXSIZE_PMU_DESC (some sample_chip) i 0x08 none =
      some (-1, none) ∧
    armv7_pmu_hw_get_event_desc MXSIZE_PMU_DESC none i e none = some (-1, none) :=
  ⟨rfl, rfl, rfl⟩

/-- C13: for every value `m` of the main ID register, `armv7_get_ic` returns
`(m mod 2^16) / 16`, the part number `m[15:4]`, which is below 0x1000; the
function is total (no failure path); the seven identifiers of the table and
the sentinel `CHIP_UNKNOWN = 0xFFF` are values of this 12-bit range. -/
theorem armv7_get_ic_part_number (s : pmu_regs) (T : pmu_name_tables) :
    (armv7_get_ic s).1 = (s.midr % 2 ^ 16) / 16 ∧
    (armv7_get_ic s).1 < 0x1000 ∧
    (chips T).map chip_pmu.type = [0xC07, 0xC09, 0xC0D, 0xC0F, 0xC0E, 0xD03, 0xD07] ∧
    (∀ c ∈ chips T, c.type < 0x1000) ∧
    chip_unknown.type = 0xFFF ∧ chip_unknown.type < 0x1000 := by
  have hv := get_ic_value s
  have hlt : s.midr % 2 ^ 16 < 2 ^ 16 := Nat.mod_lt _ (by decide)
  refine ⟨hv, by rw [hv]; omega, chips_types T, ?_, rfl, by decide⟩
  intro c hc
  have hmem : c.type ∈ (chips T).map chip_pmu.type := List.mem_map.2 ⟨c, hc, rfl⟩
  rw [chips_types] at hmem
  simp only [List.mem_cons, List.mem_singleton, List.not_mem_nil, or_false] at hmem
  omega

/-! ## Auxiliary facts on the instruction trace -/

theorem trace_ext_refl (P : access → Prop) (s : pmu_regs) : trace_ext P s s :=
  ⟨[], (List.append_nil _).symm, fun _ h => absurd h (List.not_mem_nil _)⟩

theorem trace_ext_trans (P : access → Prop) (s s2 s3 : pmu_regs)
    (h1 : trace_ext P s s2) (h2 : trace_ext P s2 s3) : trace_ext P s s3 := by
  obtain ⟨t1, e1, p1⟩ := h1
  obtain ⟨t2, e2, p2⟩ := h2
  refine ⟨t1 ++ t2, by rw [e2, e1, List.append_assoc], ?_⟩
  intro a ha
  rcases List.mem_append.1 ha with h | h
  · exact p1 a h
  · exact p2 a h

theorem trace_ext_mono (P Q : access → Prop) (s s2 : pmu_regs) (h : trace_ext P s s2)
    (hPQ : ∀ a, P a → Q a) : trace_ext Q s s2 := by
  obtain ⟨t, e, p⟩ := h
  exact ⟨t, e, fun a ha => hPQ a (p a ha)⟩

theorem mcr_trace (r : cp15) (v : Nat) (s : pmu_regs) :
    (mcr r v s).trace = s.trace ++ [access.mcr r v] := by
  cases r <;> rfl

theorem trace_ext_mcr (P : access → Prop) (r : cp15) (v : Nat) (s : pmu_regs)
    (h : P (access.mcr r v)) : trace_ext P s (mcr r v s) :=
  ⟨[access.mcr r v], mcr_trace r v s, fun a ha => by rw [List.mem_singleton.1 ha]; exact h⟩

theorem trace_ext_mrc (P : access → Prop) (r : cp15) (s : pmu_regs)
    (h : ∀ v, P (access.mrc r v)) : trace_ext P s (mrc r s).2 :=
  ⟨[access.mrc r (reg_value r s)], rfl, fun a ha => by rw [List.mem_singleton.1 ha]; exact h _⟩

theorem trace_ext_isb (P : access → Prop) (s : pmu_regs) (h : P access.isb) :
    trace_ext P s (isb s) :=
  ⟨[access.isb], rfl, fun a ha => by rw [List.mem_singleton.1 ha]; exact h⟩

/-- The instructions of the loop of `armv7_pmu_hw_reset_all`: writes of `1 << j` to the
two clear registers, for the indices `j` the loop runs through. -/
theorem reset_all_loop_trace : ∀ (n i : Nat) (s : pmu_regs),
    trace_ext (fun a => ∃ j, i ≤ j ∧ j < i + n ∧
      (a = access.mcr cp15.PMINTENCLR (bit_of j) ∨ a = access.mcr cp15.PMCNTENCLR (bit_of j)))
      s (reset_all_loop n i s) := by
  intro n
  induction n with
  | zero => intro i s; exact trace_ext_refl _ s
  | succ n ih =>
    intro i s
    rw [reset_all_loop]
    apply trace_ext_trans _ s (armv7_pmu_disable_intr i s)
    · exact trace_ext_mcr _ _ _ _ ⟨i, le_refl _, by omega, Or.inl rfl⟩
    apply trace_ext_trans _ _ (armv7_pmu_disable_count i (armv7_pmu_disable_intr i s))
    · exact trace_ext_mcr _ _ _ _ ⟨i, le_refl _, by omega, Or.inr rfl⟩
    · apply trace_ext_mono _ _ _ _ (ih (i + 1) _)
      rintro a ⟨j, h1, h2, h3⟩
      exact ⟨j, by omega, by omega, h3⟩

/-- The instructions of the loop of `armv7_pmu_hw_start`. -/
theorem start_loop_trace (M : Nat) (pmu : List met_pmu) : ∀ (n i : Nat) (s s2 : pmu_regs),
    start_loop M pmu n i s = some s2 →
    trace_ext (fun a => ∃ j, i ≤ j ∧ j < i + n ∧
      (a = access.mcr cp15.PMSELR j ∨ a = access.isb ∨
        (∃ v, a = access.mcr cp15.PMXEVTYPER v) ∨ a = access.mcr cp15.PMCNTENSET (bit_of j)))
      s s2 := by
  intro n
  induction n with
  | zero =>
    intro i s s2 h
    simp only [start_loop, Option.some.injEq] at h
    rw [← h]; exact trace_ext_refl _ s
  | succ n ih =>
    intro i s s2 h
    rw [start_loop] at h
    cases hget : pmu[i]? with
    | none => rw [hget] at h; exact absurd h (by simp)
    | some slot =>
      rw [hget] at h
      have hmono : ∀ t, trace_ext (fun a => ∃ j, i + 1 ≤ j ∧ j < i + 1 + n ∧
          (a = access.mcr cp15.PMSELR j ∨ a = access.isb ∨
            (∃ v, a = access.mcr cp15.PMXEVTYPER v) ∨
            a = access.mcr cp15.PMCNTENSET (bit_of j))) t s2 →
          trace_ext (fun a => ∃ j, i ≤ j ∧ j < i + (n + 1) ∧
          (a = access.mcr cp15.PMSELR j ∨ a = access.isb ∨
            (∃ v, a = access.mcr cp15.PMXEVTYPER v) ∨
            a = access.mcr cp15.PMCNTENSET (bit_of j))) t s2 := by
        intro t ht
        apply trace_ext_mono _ _ _ _ ht
        rintro a ⟨j, h1, h2, h3⟩
        exact ⟨j, by omega, by omega, h3⟩
      by_cases hm : slot.mode = M
      · simp only [if_pos hm] at h
        apply trace_ext_trans _ s (mcr cp15.PMSELR i s)
        · exact trace_ext_mcr _ _ _ _ ⟨i, le_refl _, by omega, Or.inl rfl⟩
        apply trace_ext_trans _ _ (isb (mcr cp15.PMSELR i s))
        · exact trace_ext_isb _ _ ⟨i, le_refl _, by omega, Or.inr (Or.inl rfl)⟩
        apply trace_ext_trans _ _
          (mcr cp15.PMXEVTYPER (slot.event % 2 ^ 32) (isb (mcr cp15.PMSELR i s)))
        · exact trace_ext_mcr _ _ _ _ ⟨i, le_refl _, by omega, Or.inr (Or.inr (Or.inl ⟨_, rfl⟩))⟩
        apply trace_ext_trans _ _
          (armv7_pmu_enable_count i (armv7_pmu_type_select i (slot.event % 2 ^ 32) s))
        · exact trace_ext_mcr _ _ _ _ ⟨i, le_refl _, by omega, Or.inr (Or.inr (Or.inr rfl))⟩
        · exact hmono _ (ih (i + 1) _ s2 h)
      · simp only [if_neg hm] at h
        exact hmono _ (ih (i + 1) _ s2 h)

/-- The instructions of a counter read, and the registers it leaves alone. -/
theorem read_count_trace (idx : Nat) (s : pmu_regs) :
    trace_ext (fun a => (idx ≠ 31 ∧ (a = access.mcr cp15.PMSELR idx ∨ a = access.isb ∨
        ∃ v, a = access.mrc cp15.PMXEVCNTR v)) ∨ (idx = 31 ∧ ∃ v, a = access.mrc cp15.PMCCNTR v))
      s (armv7_pmu_read_count idx s).2 ∧
    (armv7_pmu_read_count idx s).2.cnten = s.cnten ∧
    (armv7_pmu_read_count idx s).2.inten = s.inten ∧
    (armv7_pmu_read_count idx s).2.ovsr = s.ovsr := by
  unfold armv7_pmu_read_count
  by_cases h : idx = 31
  · rw [if_pos h]
    exact ⟨trace_ext_mrc _ _ _ (fun v => Or.inr ⟨h, v, rfl⟩), rfl, rfl, rfl⟩
  · rw [if_neg h]
    refine ⟨?_, rfl, rfl, rfl⟩
    apply trace_ext_trans _ s (mcr cp15.PMSELR idx s)
    · exact trace_ext_mcr _ _ _ _ (Or.inl ⟨h, Or.inl rfl⟩)
    apply trace_ext_trans _ _ (isb (mcr cp15.PMSELR idx s))
    · exact trace_ext_isb _ _ (Or.inl ⟨h, Or.inr (Or.inl rfl)⟩)
    · exact trace_ext_mrc _ _ _ (fun v => Or.inl ⟨h, Or.inr (Or.inr ⟨v, rfl⟩)⟩)

/-- The loop of `armv7_pmu_hw_polling`: its instructions are counter reads of the indices it
runs through, it leaves the enable masks and the overflow flags alone, it
stores at most one value per iteration, and it writes `pmu_value` only in the
cells from the old count up to the new count. -/
theorem polling_loop_frame (M : Nat) (pmu : List met_pmu) :
    ∀ (n i cnt : Nat) (pv : Nat → Nat) (s : pmu_regs) (cnt2 : Nat) (pv2 : Nat → Nat)
      (s2 : pmu_regs),
    polling_loop M pmu n i cnt pv s = some (cnt2, pv2, s2) →
    trace_ext (fun a => ∃ j, i ≤ j ∧ j < i + n ∧
      ((j ≠ 31 ∧ (a = access.mcr cp15.PMSELR j ∨ a = access.isb ∨
        ∃ v, a = access.mrc cp15.PMXEVCNTR v)) ∨ (j = 31 ∧ ∃ v, a = access.mrc cp15.PMCCNTR v)))
      s s2 ∧
    s2.cnten = s.cnten ∧ s2.inten = s.inten ∧ s2.ovsr = s.ovsr ∧
    cnt ≤ cnt2 ∧ cnt2 ≤ cnt + n ∧
    (∀ k, (k < cnt ∨ cnt2 ≤ k) → pv2 k = pv k) := by
  intro n
  induction n with
  | zero =>
    intro i cnt pv s cnt2 pv2 s2 h
    simp only [polling_loop, Option.some.injEq, Prod.mk.injEq] at h
    obtain ⟨h1, h2, h3⟩ := h
    subst h1 h2 h3
    exact ⟨trace_ext_refl _ _, rfl, rfl, rfl, le_refl _, le_refl _, fun _ _ => rfl⟩
  | succ n ih =>
    intro i cnt pv s cnt2 pv2 s2 h
    rw [polling_loop] at h
    cases hget : pmu[i]? with
    | none => rw [hget] at h; exact absurd h (by simp)
    | some slot =>
      rw [hget] at h
      by_cases hm : slot.mode = M
      · simp only [if_pos hm] at h
        obtain ⟨ht, hc, hi, ho, hle, hle2, hpv⟩ := ih (i + 1) (cnt + 1) _ _ cnt2 pv2 s2 h
        obtain ⟨rt, rc, ri, ro⟩ := read_count_trace i s
        refine ⟨?_, hc.trans rc, hi.trans ri, ho.trans ro, by omega, by omega, ?_⟩
        · apply trace_ext_trans _ s (armv7_pmu_read_count i s).2
          · apply trace_ext_mono _ _ _ _ rt
            intro a ha
            exact ⟨i, le_refl _, by omega, ha⟩
          · apply trace_ext_mono _ _ _ _ ht
            rintro a ⟨j, h1, h2, h3⟩
            exact ⟨j, by omega, by omega, h3⟩
        · intro k hk
          rw [hpv k (by omega), Function.update_noteq (by omega)]
      · simp only [if_neg hm] at h
        obtain ⟨ht, hc, hi, ho, hle, hle2, hpv⟩ := ih (i + 1) cnt pv s cnt2 pv2 s2 h
        refine ⟨?_, hc, hi, ho, hle, by omega, hpv⟩
        apply trace_ext_mono _ _ _ _ ht
        rintro a ⟨j, h1, h2, h3⟩
        exact ⟨j, by omega, by omega, h3⟩

/-! ## Reset and polling as seen on the trace -/

theorem bit_of_eq (j : Nat) (hj : j ≤ 31) : bit_of j = 1 <<< j := by
  unfold bit_of
  rw [Nat.one_shiftLeft]
  exact Nat.mod_eq_of_lt (Nat.pow_lt_pow_right (by decide) (by omega))

/-- What `armv7_pmu_hw_reset_all` executes after its control register write: instructions
that satisfy `P`, provided the writes to the clear registers for the indices
below `g` and for index 31 and the accesses to the overflow register do. -/
theorem reset_all_trace (P : access → Prop) (g : Int) (s : pmu_regs)
    (hclr : ∀ j : Nat, ((j : Int) < g ∨ j = 31) →
      P (access.mcr cp15.PMINTENCLR (bit_of j)) ∧ P (access.mcr cp15.PMCNTENCLR (bit_of j)))
    (hov : ∀ v, P (access.mrc cp15.PMOVSR v) ∧ P (access.mcr cp15.PMOVSR v)) :
    trace_ext P (armv7_pmu_control_write (ARMV7_PMCR_C ||| ARMV7_PMCR_P) s)
      (armv7_pmu_hw_reset_all g s) := by
  unfold armv7_pmu_hw_reset_all
  apply trace_ext_trans _ _
    (reset_all_loop g.toNat 0 (armv7_pmu_control_write (ARMV7_PMCR_C ||| ARMV7_PMCR_P) s))
  · apply trace_ext_mono _ _ _ _ (reset_all_loop_trace g.toNat 0 _)
    rintro a ⟨j, _, h2, h3⟩
    have hj : (j : Int) < g := Int.lt_toNat.1 (by omega)
    rcases h3 with h | h
    · rw [h]; exact (hclr j (Or.inl hj)).1
    · rw [h]; exact (hclr j (Or.inl hj)).2
  apply trace_ext_trans _ _ (armv7_pmu_disable_intr 31
    (reset_all_loop g.toNat 0 (armv7_pmu_control_write (ARMV7_PMCR_C ||| ARMV7_PMCR_P) s)))
  · exact trace_ext_mcr _ _ _ _ (hclr 31 (Or.inr rfl)).1
  apply trace_ext_trans _ _ (armv7_pmu_disable_count 31 (armv7_pmu_disable_intr 31
    (reset_all_loop g.toNat 0 (armv7_pmu_control_write (ARMV7_PMCR_C ||| ARMV7_PMCR_P) s))))
  · exact trace_ext_mcr _ _ _ _ (hclr 31 (Or.inr rfl)).2
  · show trace_ext P _ (mcr cp15.PMOVSR _ (mrc cp15.PMOVSR _).2)
    apply trace_ext_trans _ _ (mrc cp15.PMOVSR (armv7_pmu_disable_count 31
      (armv7_pmu_disable_intr 31 (reset_all_loop g.toNat 0
        (armv7_pmu_control_write (ARMV7_PMCR_C ||| ARMV7_PMCR_P) s))))).2
    · exact trace_ext_mrc _ _ _ (fun v => (hov v).1)
    · exact trace_ext_mcr _ _ _ _ (hov _).2

/-- C14: for every `g <= 31` (in particular `0 <= g <= 31`) and every prior register
state, `armv7_pmu_hw_reset_all(g)` makes one write to the control register,
first of all, with the value 0x6 (cycle counter reset and counter reset,
Enable clear); it clears the count-enable and interrupt-enable bits of the
indices `0 .. g-1` and 31 and leaves those of every other index, so of
`g .. 30`, unchanged; the overflow flags are clear afterwards, the last
instruction being the write of the value read from the overflow register back
to it; and for `g <= 0` index 31 is the only one disabled. -/
theorem armv7_pmu_hw_reset_all_effect (g : Int) (s : pmu_regs) (hg : g ≤ 31) :
    (∃ tr, (armv7_pmu_hw_reset_all g s).trace =
        s.trace ++ [access.isb, access.mcr cp15.PMCR 6] ++ tr ∧
      ∀ a ∈ tr, not_control_write a) ∧
    (ARMV7_PMCR_C ||| ARMV7_PMCR_P = 6 ∧ (6 : Nat).testBit 0 = false) ∧
    (∀ j : Nat, ((j : Int) < g ∨ j = 31) →
      (armv7_pmu_hw_reset_all g s).cnten.testBit j = false ∧
      (armv7_pmu_hw_reset_all g s).inten.testBit j = false) ∧
    (∀ j : Nat, ¬ ((j : Int) < g ∨ j = 31) →
      (armv7_pmu_hw_reset_all g s).cnten.testBit j = s.cnten.testBit j ∧
      (armv7_pmu_hw_reset_all g s).inten.testBit j = s.inten.testBit j) ∧
    (armv7_pmu_hw_reset_all g s).ovsr = 0 ∧
    (g ≤ 0 → ∀ j : Nat, j ≠ 31 →
      (armv7_pmu_hw_reset_all g s).cnten.testBit j = s.cnten.testBit j ∧
      (armv7_pmu_hw_reset_all g s).inten.testBit j = s.inten.testBit j) ∧
    (armv7_pmu_hw_reset_all g s).trace.getLast? = some (access.mcr cp15.PMOVSR s.ovsr) := by
  obtain ⟨_, hov, _, _, hc, hi⟩ := reset_all_spec g s
  have hlt : ∀ j : Nat, j < g.toNat ↔ (j : Int) < g := fun j => Int.lt_toNat
  have hkeep : ∀ j : Nat, ¬ ((j : Int) < g ∨ j = 31) →
      (armv7_pmu_hw_reset_all g s).cnten.testBit j = s.cnten.testBit j ∧
      (armv7_pmu_hw_reset_all g s).inten.testBit j = s.inten.testBit j := by
    intro j hidx
    have hidx2 : ¬ ((j < g.toNat ∨ j = 31) ∧ j < 32) :=
      fun h => hidx (h.1.imp (hlt j).1 id)
    constructor
    · rw [Bool.eq_iff_iff]
      exact ⟨fun h => ((hc j).1 h).1, fun h => (hc j).2 ⟨h, hidx2⟩⟩
    · rw [Bool.eq_iff_iff]
      exact ⟨fun h => ((hi j).1 h).1, fun h => (hi j).2 ⟨h, hidx2⟩⟩
  refine ⟨?_, ⟨by decide, by decide⟩, ?_, hkeep, hov, ?_, ?_⟩
  · obtain ⟨tr, htr, hP⟩ := reset_all_trace not_control_write g s
      (fun j _ => ⟨(fun v h => by cases h), (fun v h => by cases h)⟩)
      (fun v => ⟨(fun w h => by cases h), (fun w h => by cases h)⟩)
    refine ⟨tr, ?_, hP⟩
    rw [htr, control_write_trace, List.append_assoc s.trace]
    rfl
  · intro j hidx
    have hidx2 : (j < g.toNat ∨ j = 31) ∧ j < 32 := by
      refine ⟨hidx.imp (hlt j).2 id, ?_⟩
      rcases hidx with h | h <;> omega
    constructor
    · rw [← Bool.not_eq_true]
      intro h
      exact ((hc j).1 h).2 hidx2
    · rw [← Bool.not_eq_true]
      intro h
      exact ((hi j).1 h).2 hidx2
  · intro hg0 j hj
    exact hkeep j (by omega)
  · have hovsr : (reset_all_loop g.toNat 0
        (armv7_pmu_control_write (ARMV7_PMCR_C ||| ARMV7_PMCR_P) s)).ovsr = s.ovsr :=
      (reset_all_loop_spec g.toNat 0 _).2.1
    show (mcr cp15.PMOVSR (reset_all_loop g.toNat 0
      (armv7_pmu_control_write (ARMV7_PMCR_C ||| ARMV7_PMCR_P) s)).ovsr _).trace.getLast? = _
    rw [mcr_trace, List.getLast?_concat, hovsr]

/-- Evaluation of C14 at `g = 2` on a state with every counter enabled: bit 1 is cleared,
bit 2 is kept. -/
theorem armv7_pmu_hw_reset_all_effect_witness :
    (2 : Int) ≤ 31 ∧
    (armv7_pmu_hw_reset_all 2 sample_regs).cnten.testBit 1 = false ∧
    (armv7_pmu_hw_reset_all 2 sample_regs).cnten.testBit 2 = sample_regs.cnten.testBit 2 :=
  ⟨by decide,
    ((armv7_pmu_hw_reset_all_effect 2 sample_regs (by decide)).2.2.1 1 (by decide)).1,
    ((armv7_pmu_hw_reset_all_effect 2 sample_regs (by decide)).2.2.2.1 2 (by decide)).1⟩

/-- C15: for every `count >= 1` and slot array with at least `count` slots,
`armv7_pmu_hw_polling` executes counter reads, none of them a write to the
control register, and then, last of all, one write of 0x7 (cycle counter
reset, counter reset, Enable) to the control register; the mask 0x3f leaves
0x7, 0x6 and 0x1 unchanged; the count-enable, interrupt-enable and overflow
registers after the call are those before it. -/
theorem armv7_pmu_hw_polling_control (MODE_POLLING : Nat) (pmu : List met_pmu) (count : Int)
    (pmu_value : Nat → Nat) (s : pmu_regs) (hcount : 1 ≤ count)
    (hlen : count ≤ (pmu.length : Int)) :
    ∃ cnt pv2 s2,
      armv7_pmu_hw_polling MODE_POLLING pmu count pmu_value s = some (cnt, pv2, s2) ∧
      (∃ reads, s2.trace = s.trace ++ reads ++ [access.isb, access.mcr cp15.PMCR 7] ∧
        ∀ a ∈ reads, not_control_write a) ∧
      ((ARMV7_PMCR_C ||| ARMV7_PMCR_P ||| ARMV7_PMCR_E) &&& ARMV7_PMCR_MASK = 7 ∧
        (ARMV7_PMCR_C ||| ARMV7_PMCR_P) &&& ARMV7_PMCR_MASK = 6 ∧
        ARMV7_PMCR_E &&& ARMV7_PMCR_MASK = 1) ∧
      s2.cnten = s.cnten ∧ s2.inten = s.inten ∧ s2.ovsr = s.ovsr := by
  obtain ⟨m, hm⟩ : ∃ m : Nat, count = m + 1 := ⟨(count - 1).toNat, by omega⟩
  have hg : (count - 1).toNat = m := by omega
  have hmlt : m < pmu.length := by omega
  obtain ⟨pv1, s1, heq, _, _, _, _⟩ :=
    polling_loop_spec MODE_POLLING pmu m 0 0 pmu_value s (by omega)
  obtain ⟨⟨tr, htr, hP⟩, hc, hi, ho, _, _, _⟩ :=
    polling_loop_frame MODE_POLLING pmu m 0 0 pmu_value s _ pv1 s1 heq
  have hP2 : ∀ a ∈ tr, not_control_write a := by
    intro a ha v hv
    obtain ⟨j, _, _, h3⟩ := hP a ha
    rw [hv] at h3
    rcases h3 with ⟨_, h | h | ⟨w, h⟩⟩ | ⟨_, w, h⟩ <;> cases h
  have hslot : slot_at pmu (count - 1) = some pmu[m] := by
    unfold slot_at
    rw [if_neg (by omega), hg, List.getElem?_eq_getElem hmlt]
  unfold armv7_pmu_hw_polling
  simp only [hg, heq, hslot]
  by_cases hlast : pmu[m].mode = MODE_POLLING
  · rw [if_pos hlast]
    refine ⟨_, _, _, rfl, ?_, ⟨by decide, by decide, by decide⟩, ?_, ?_, ?_⟩
    · refine ⟨tr ++ [access.mrc cp15.PMCCNTR s1.ccntr], ?_, ?_⟩
      · rw [control_write_trace]
        show (s1.trace ++ [access.mrc cp15.PMCCNTR s1.ccntr]) ++ [access.isb] ++ _ = _
        rw [htr]
        simp
        rfl
      · intro a ha
        rcases List.mem_append.1 ha with h | h
        · exact hP2 a h
        · rw [List.mem_singleton.1 h]; intro v hv; cases hv
    · exact hc
    · exact hi
    · exact ho
  · rw [if_neg hlast]
    refine ⟨_, _, _, rfl, ?_, ⟨by decide, by decide, by decide⟩, hc, hi, ho⟩
    refine ⟨tr, ?_, hP2⟩
    rw [control_write_trace, htr]
    simp
    rfl

/-- Evaluation of C15 on the five-slot scenario. -/
theorem armv7_pmu_hw_polling_control_witness :
    (1 : Int) ≤ 5 ∧ (5 : Int) ≤ (sample_slots.length : Int) ∧
    ∃ cnt pv2 s2, armv7_pmu_hw_polling 2 sample_slots 5 (fun _ => 0) sample_regs =
        some (cnt, pv2, s2) ∧
      s2.cnten = sample_regs.cnten ∧ s2.trace.getLast? = some (access.mcr cp15.PMCR 7) :=
  ⟨by decide, by decide,
    match armv7_pmu_hw_polling_control 2 sample_slots 5 (fun _ => 0) sample_regs
      (by decide) (by decide) with
    | ⟨cnt, pv2, s2, h1, ⟨reads, h2, _⟩, _, h4, _, _⟩ =>
      ⟨cnt, pv2, s2, h1, h4, by rw [h2]; simp⟩⟩

/-! ## Index ranges of the lifecycle operations -/

theorem control_write_in_range (v : Nat) (s : pmu_regs) :
    trace_ext access_in_range s (armv7_pmu_control_write v s) :=
  trace_ext_trans _ s (isb s) _ (trace_ext_isb _ _ trivial) (trace_ext_mcr _ _ _ _ trivial)

theorem clear_write_in_range (j : Nat) (hj : j ≤ 31) :
    access_in_range (access.mcr cp15.PMINTENCLR (bit_of j)) ∧
    access_in_range (access.mcr cp15.PMCNTENCLR (bit_of j)) ∧
    access_in_range (access.mcr cp15.PMCNTENSET (bit_of j)) :=
  ⟨⟨j, hj, bit_of_eq j hj⟩, ⟨j, hj, bit_of_eq j hj⟩, ⟨j, hj, bit_of_eq j hj⟩⟩

theorem reset_all_in_range (g : Int) (s : pmu_regs) (hg : g ≤ 31) :
    trace_ext access_in_range s (armv7_pmu_hw_reset_all g s) := by
  apply trace_ext_trans _ s _ _ (control_write_in_range _ s)
  apply reset_all_trace
  · intro j hj
    have hj31 : j ≤ 31 := by rcases hj with h | h <;> omega
    exact ⟨(clear_write_in_range j hj31).1, (clear_write_in_range j hj31).2.1⟩
  · intro v; exact ⟨trivial, trivial⟩

theorem start_loop_append (M : Nat) (pmu extra : List met_pmu) :
    ∀ (n i : Nat) (s : pmu_regs), i + n ≤ pmu.length →
      start_loop M (pmu ++ extra) n i s = start_loop M pmu n i s := by
  intro n
  induction n with
  | zero => intro i s _; rfl
  | succ n ih =>
    intro i s hi
    have ih2 : ∀ t, start_loop M (pmu ++ extra) n (i + 1) t = start_loop M pmu n (i + 1) t :=
      fun t => ih (i + 1) t (by omega)
    rw [start_loop, start_loop, List.getElem?_append_left (by omega)]
    simp only [ih2]

theorem polling_loop_append (M : Nat) (pmu extra : List met_pmu) :
    ∀ (n i cnt : Nat) (pv : Nat → Nat) (s : pmu_regs), i + n ≤ pmu.length →
      polling_loop M (pmu ++ extra) n i cnt pv s = polling_loop M pmu n i cnt pv s := by
  intro n
  induction n with
  | zero => intro i cnt pv s _; rfl
  | succ n ih =>
    intro i cnt pv s hi
    have ih2 : ∀ c p t, polling_loop M (pmu ++ extra) n (i + 1) c p t =
        polling_loop M pmu n (i + 1) c p t := fun c p t => ih (i + 1) c p t (by omega)
    rw [polling_loop, polling_loop, List.getElem?_append_left (by omega)]
    simp only [ih2]

/-- C17: for `1 <= count <= 32` and a slot array of length `count`, `armv7_pmu_hw_start`,
`armv7_pmu_hw_stop` and `armv7_pmu_hw_polling` complete without a read outside
the array (slots appended behind the first `count` change nothing), polling
stores at most `count` values and leaves every cell of `pmu_value` at offset
`count` or beyond as it was, every counter selection they execute selects an
index of at most 30, never 31, and every word they write to a set or clear
register is `1 << idx` with `idx <= 31`. -/
theorem lifecycle_indices_in_range (MODE_POLLING : Nat) (pmu : List met_pmu) (count : Int)
    (pmu_value : Nat → Nat) (s : pmu_regs) (hcount : 1 ≤ count) (h32 : count ≤ 32)
    (hlen : (pmu.length : Int) = count) :
    (∃ s2, armv7_pmu_hw_start MODE_POLLING pmu count s = some s2 ∧
      trace_ext access_in_range s s2) ∧
    trace_ext access_in_range s (armv7_pmu_hw_stop count s) ∧
    (∃ cnt pv2 s2,
      armv7_pmu_hw_polling MODE_POLLING pmu count pmu_value s = some (cnt, pv2, s2) ∧
      (cnt : Int) ≤ count ∧
      (∀ k : Nat, count ≤ (k : Int) → pv2 k = pmu_value k) ∧
      trace_ext access_in_range s s2) ∧
    (∀ extra : List met_pmu,
      armv7_pmu_hw_start MODE_POLLING (pmu ++ extra) count s =
        armv7_pmu_hw_start MODE_POLLING pmu count s ∧
      armv7_pmu_hw_polling MODE_POLLING (pmu ++ extra) count pmu_value s =
        armv7_pmu_hw_polling MODE_POLLING pmu count pmu_value s) := by
  obtain ⟨m, hm⟩ : ∃ m, pmu.length = m + 1 := ⟨pmu.length - 1, by omega⟩
  have hg : (count - 1).toNat = m := by omega
  have hmlt : m < pmu.length := by omega
  have hm31 : m ≤ 31 := by omega
  have hslot : slot_at pmu (count - 1) = some pmu[m] := by
    unfold slot_at
    rw [if_neg (by omega), hg, List.getElem?_eq_getElem hmlt]
  have hreset := reset_all_in_range (count - 1) s (by omega)
  refine ⟨?_, hreset, ?_, ?_⟩
  · obtain ⟨s1, heq, _, _, _⟩ :=
      start_loop_spec MODE_POLLING pmu m 0 (armv7_pmu_hw_reset_all (count - 1) s) (by omega)
    have hloop : trace_ext access_in_range (armv7_pmu_hw_reset_all (count - 1) s) s1 := by
      apply trace_ext_mono _ _ _ _ (start_loop_trace MODE_POLLING pmu m 0 _ s1 heq)
      rintro a ⟨j, _, h2, h3⟩
      have hj : j ≤ 30 := by omega
      rcases h3 with h | h | ⟨v, h⟩ | h
      · rw [h]; exact hj
      · rw [h]; trivial
      · rw [h]; trivial
      · rw [h]; exact (clear_write_in_range j (by omega)).2.2
    unfold armv7_pmu_hw_start
    simp only [hg, heq, hslot]
    refine ⟨_, rfl, ?_⟩
    apply trace_ext_trans _ s _ _ hreset
    apply trace_ext_trans _ _ _ _ hloop
    by_cases hlast : pmu[m].mode = MODE_POLLING
    · rw [if_pos hlast]
      exact trace_ext_trans _ _ _ _
        (trace_ext_mcr _ _ _ _ (clear_write_in_range 31 (le_refl _)).2.2)
        (control_write_in_range _ _)
    · rw [if_neg hlast]
      exact control_write_in_range _ _
  · obtain ⟨pv1, s1, heq, _, _, _, _⟩ :=
      polling_loop_spec MODE_POLLING pmu m 0 0 pmu_value s (by omega)
    obtain ⟨ht, _, _, _, _, hle, hpv⟩ :=
      polling_loop_frame MODE_POLLING pmu m 0 0 pmu_value s _ pv1 s1 heq
    have hloop : trace_ext access_in_range s s1 := by
      apply trace_ext_mono _ _ _ _ ht
      rintro a ⟨j, _, h2, h3⟩
      have hj : j ≤ 30 := by omega
      rcases h3 with ⟨_, h | h | ⟨v, h⟩⟩ | ⟨_, v, h⟩
      · rw [h]; exact hj
      · rw [h]; trivial
      · rw [h]; trivial
      · rw [h]; trivial
    unfold armv7_pmu_hw_polling
    simp only [hg, heq, hslot]
    by_cases hlast : pmu[m].mode = MODE_POLLING
    · rw [if_pos hlast]
      refine ⟨_, _, _, rfl, by push_cast; omega, ?_, ?_⟩
      · intro k hk
        rw [Function.update_noteq (by omega), hpv k (Or.inr (by omega))]
      · apply trace_ext_trans _ s _ _ hloop
        apply trace_ext_trans _ _ (armv7_pmu_read_count 31 s1).2
        · exact trace_ext_mrc _ _ _ (fun _ => trivial)
        · exact control_write_in_range _ _
    · rw [if_neg hlast]
      refine ⟨_, _, _, rfl, by omega, ?_, ?_⟩
      · intro k hk
        exact hpv k (Or.inr (by omega))
      · exact trace_ext_trans _ s _ _ hloop (control_write_in_range _ _)
  · intro extra
    have hslot2 : slot_at (pmu ++ extra) (count - 1) = slot_at pmu (count - 1) := by
      unfold slot_at
      rw [if_neg (by omega), if_neg (by omega), hg, List.getElem?_append_left hmlt]
    constructor
    · unfold armv7_pmu_hw_start
      simp only [hg, hslot2, start_loop_append MODE_POLLING pmu extra m 0 _ (by omega)]
    · unfold armv7_pmu_hw_polling
      simp only [hg, hslot2, polling_loop_append MODE_POLLING pmu extra m 0 0 _ _ (by omega)]

/-- Evaluation of C17 on the five-slot scenario. -/
theorem lifecycle_indices_in_range_witness :
    (1 : Int) ≤ 5 ∧ (5 : Int) ≤ 32 ∧ ((sample_slots.length : Int) = 5) ∧
    trace_ext access_in_range sample_regs (armv7_pmu_hw_stop 5 sample_regs) :=
  ⟨by decide, by decide, by decide,
    (lifecycle_indices_in_range 2 sample_slots 5 (fun _ => 0) sample_regs
      (by decide) (by decide) (by decide)).2.1⟩

/-! ## Validate-then-append -/

theorem check_event_dup_loop_sound (pmu : List met_pmu) (e : Int) :
    ∀ (n i j : Nat), check_event_dup_loop pmu e n i = some j →
      j ≤ i + n ∧ (j = i + n → ∀ k, i ≤ k → k < i + n → ∀ slot, pmu[k]? = some slot →
        (slot.event : Int) ≠ e) := by
  intro n
  induction n with
  | zero =>
    intro i j h
    simp only [check_event_dup_loop, Option.some.injEq] at h
    exact ⟨by omega, fun _ k h1 h2 => by omega⟩
  | succ n ih =>
    intro i j h
    rw [check_event_dup_loop] at h
    cases hget : pmu[i]? with
    | none => rw [hget] at h; exact absurd h (by simp)
    | some slot =>
      rw [hget] at h
      by_cases he : (slot.event : Int) = e
      · simp only [if_pos he, Option.some.injEq] at h
        exact ⟨by omega, fun hj => by omega⟩
      · simp only [if_neg he] at h
        obtain ⟨h1, h2⟩ := ih (i + 1) j h
        refine ⟨by omega, ?_⟩
        intro hj k hk1 hk2 slot2 hget2
        by_cases hki : k = i
        · rw [hki, hget] at hget2
          simp only [Option.some.injEq] at hget2
          rw [← hget2]; exact he
        · exact h2 (by omega) k (by omega) (by omega) slot2 hget2

theorem check_event_desc_loop_sound (desc : List pmu_desc) (e : Int) :
    ∀ (n i j : Nat), check_event_desc_loop desc e n i = some j →
      i ≤ j ∧ j ≤ i + n ∧ (j ≠ i + n → ∃ d, desc[j]? = some d ∧ d.event = to_u32 e) := by
  intro n
  induction n with
  | zero =>
    intro i j h
    simp only [check_event_desc_loop, Option.some.injEq] at h
    exact ⟨by omega, by omega, fun hne => absurd (by omega) hne⟩
  | succ n ih =>
    intro i j h
    rw [check_event_desc_loop] at h
    cases hget : desc[i]? with
    | none => rw [hget] at h; exact absurd h (by simp)
    | some d =>
      rw [hget] at h
      by_cases he : d.event = to_u32 e
      · simp only [if_pos he, Option.some.injEq] at h
        subst h
        exact ⟨le_refl _, by omega, fun _ => ⟨d, hget, he⟩⟩
      · simp only [if_neg he] at h
        obtain ⟨h1, h2, h3⟩ := ih (i + 1) j h
        exact ⟨by omega, by omega, fun hne => h3 (by omega)⟩

/-- Whenever `armv7_pmu_hw_check_event` returns 0, no slot below `idx` has the event and
the event is among the first `count` descriptors of the binding. -/
theorem check_event_sound (chip : Option chip_pmu) (pmu : List met_pmu) (idx e : Int)
    (h : armv7_pmu_hw_check_event chip pmu idx e = some 0) :
    (∀ k : Nat, (k : Int) < idx → ∀ slot, pmu[k]? = some slot → (slot.event : Int) ≠ e) ∧
    ∃ c, chip = some c ∧ ∃ j d, j < c.count ∧ c.desc[j]? = some d ∧ d.event = to_u32 e := by
  unfold armv7_pmu_hw_check_event at h
  cases hdup : check_event_dup_loop pmu e idx.toNat 0 with
  | none => rw [hdup] at h; exact absurd h (by simp)
  | some i0 =>
    rw [hdup] at h
    simp only [] at h
    obtain ⟨hle, hall⟩ := check_event_dup_loop_sound pmu e idx.toNat 0 i0 hdup
    by_cases hlt : (i0 : Int) < idx
    · rw [if_pos hlt] at h; exact absurd h (by decide)
    · rw [if_neg hlt] at h
      have hi0 : i0 = 0 + idx.toNat := by omega
      constructor
      · intro k hk slot hget
        exact hall hi0 k (Nat.zero_le _) (by omega) slot hget
      · cases chip with
        | none => exact absurd h (by simp)
        | some c =>
          simp only [] at h
          cases hd : check_event_desc_loop c.desc e c.count 0 with
          | none => rw [hd] at h; exact absurd h (by simp)
          | some j =>
            rw [hd] at h
            simp only [] at h
            obtain ⟨_, h2, h3⟩ := check_event_desc_loop_sound c.desc e c.count 0 j hd
            by_cases hj : j = c.count
            · rw [if_pos hj] at h; exact absurd h (by decide)
            · obtain ⟨d, hget, hde⟩ := h3 (by omega)
              exact ⟨c, rfl, j, d, by omega, hget, hde⟩

theorem validate_then_append_inv (c : chip_pmu) (slots : List met_pmu) (slot : met_pmu)
    (hnd : (slots.map met_pmu.event).Nodup)
    (hcat : ∀ sl ∈ slots, ∃ j d, j < c.count ∧ c.desc[j]? = some d ∧ d.event = sl.event) :
    ((validate_then_append (some c) slots slot).map met_pmu.event).Nodup ∧
    ∀ sl ∈ validate_then_append (some c) slots slot,
      ∃ j d, j < c.count ∧ c.desc[j]? = some d ∧ d.event = sl.event := by
  unfold validate_then_append
  by_cases hok : armv7_pmu_hw_check_event (some c) slots slots.length slot.event = some 0
  · rw [if_pos hok]
    obtain ⟨hdup, c2, hc2, j, d, hj, hget, hde⟩ := check_event_sound _ _ _ _ hok
    simp only [Option.some.injEq] at hc2
    subst hc2
    constructor
    · rw [List.map_append, List.map_singleton]
      apply List.Nodup.append hnd (List.nodup_singleton _)
      intro ev hev1 hev2
      rw [List.mem_singleton] at hev2
      obtain ⟨sl, hsl, hsle⟩ := List.mem_map.1 hev1
      obtain ⟨k, hk⟩ := List.mem_iff_getElem?.1 hsl
      have hklt : k < slots.length := by
        by_contra hge
        rw [List.getElem?_eq_none (by omega)] at hk
        exact absurd hk (by simp)
      have := hdup k (by exact_mod_cast hklt) sl hk
      apply this
      rw [hsle, hev2]
    · intro sl hsl
      rcases List.mem_append.1 hsl with h | h
      · exact hcat sl h
      · rw [List.mem_singleton.1 h]
        exact ⟨j, d, hj, hget, by exact_mod_cast hde⟩
  · rw [if_neg hok]
    exact ⟨hnd, hcat⟩

/-- C16: in a slot sequence built from empty by validate-then-append, after any number of
requests, the event codes of the slots are pairwise distinct and each of them
is the event of one of the first `count` descriptors of the active binding. -/
theorem build_slots_well_formed (c : chip_pmu) (requests : List met_pmu) :
    ((build_slots (some c) requests).map met_pmu.event).Nodup ∧
    (∀ sl ∈ build_slots (some c) requests,
      ∃ j d, j < c.count ∧ c.desc[j]? = some d ∧ d.event = sl.event) := by
  have hgen : ∀ (reqs : List met_pmu) (acc : List met_pmu),
      ((acc.map met_pmu.event).Nodup ∧
        ∀ sl ∈ acc, ∃ j d, j < c.count ∧ c.desc[j]? = some d ∧ d.event = sl.event) →
      (((reqs.foldl (validate_then_append (some c)) acc).map met_pmu.event).Nodup ∧
        ∀ sl ∈ reqs.foldl (validate_then_append (some c)) acc,
          ∃ j d, j < c.count ∧ c.desc[j]? = some d ∧ d.event = sl.event) := by
    intro reqs
    induction reqs with
    | nil => intro acc h; exact h
    | cons r rest ih =>
      intro acc h
      rw [List.foldl_cons]
      exact ih _ (validate_then_append_inv c acc r h.1 h.2)
  exact hgen requests [] ⟨List.nodup_nil, fun _ h => absurd h (List.not_mem_nil _)⟩

/-! ## Init entry called with a binding already set -/

theorem init_loop_some (type : Nat) (c0 : chip_pmu) :
    ∀ l : List chip_pmu, ∃ c, init_loop type l (some c0) = some c := by
  intro l
  induction l with
  | nil => exact ⟨c0, rfl⟩
  | cons c rest ih =>
    rw [init_loop]
    by_cases h : c.type = type
    · rw [if_pos h]; exact ⟨c, rfl⟩
    · rw [if_neg h]; exact ih

theorem init_keeps_midr (T : pmu_name_tables) (v6 : Nat → cpu_pmu_hw_ptr) (d : driver) :
    (cpu_pmu_hw_init T v6 d).2.regs.midr = d.regs.midr := by
  cases h : init_loop ((d.regs.midr &&& 0xffff) >>> 4) (chips T) d.chip with
  | some c =>
    simp [cpu_pmu_hw_init, armv7_get_ic, mrc, reg_value, h, armv7_pmu_hw_get_counters,
      armv7_pmu_control_read]
  | none =>
    by_cases hv : v6 ((d.regs.midr &&& 0xffff) >>> 4) = cpu_pmu_hw_ptr.NULL
    · simp [cpu_pmu_hw_init, armv7_get_ic, mrc, reg_value, h, hv]
    · simp [cpu_pmu_hw_init, armv7_get_ic, mrc, reg_value, h, hv]

theorem init_keeps_pmcr (T : pmu_name_tables) (v6 : Nat → cpu_pmu_hw_ptr) (d : driver) :
    (cpu_pmu_hw_init T v6 d).2.regs.pmcr = d.regs.pmcr := by
  cases h : init_loop ((d.regs.midr &&& 0xffff) >>> 4) (chips T) d.chip with
  | some c =>
    simp [cpu_pmu_hw_init, armv7_get_ic, mrc, reg_value, h, armv7_pmu_hw_get_counters,
      armv7_pmu_control_read]
  | none =>
    by_cases hv : v6 ((d.regs.midr &&& 0xffff) >>> 4) = cpu_pmu_hw_ptr.NULL
    · simp [cpu_pmu_hw_init, armv7_get_ic, mrc, reg_value, h, hv]
    · simp [cpu_pmu_hw_init, armv7_get_ic, mrc, reg_value, h, hv]

/-- C18: `cpu_pmu_hw_init` never clears the binding.  When a binding `c0` is set on entry
and the detected identifier matches no table entry, it keeps `c0`, makes no
call to the legacy init and returns the address of `armv7_pmu`, with
`cpu_name` the name of `c0` and `nr_cnt` the hardware counter count plus 1,
that is the field `[15:11]` of the 32-bit control register plus 1.
In particular, after a failed first call (null returned, sentinel bound) a
second call with the same legacy init returns the address of `armv7_pmu`
with `cpu_name` "Unknown CPU" and `nr_cnt` that same field plus 1. -/
theorem cpu_pmu_hw_init_keeps_binding (T : pmu_name_tables)
    (v6_cpu_pmu_hw_init : Nat → cpu_pmu_hw_ptr) (d : driver) (c0 : chip_pmu)
    (hset : d.chip = some c0)
    (hno : ∀ c ∈ chips T, c.type ≠ (armv7_get_ic d.regs).1)
    (hpmcr : d.regs.pmcr < 2 ^ 32) :
    ((cpu_pmu_hw_init T v6_cpu_pmu_hw_init d).1 = cpu_pmu_hw_ptr.armv7_pmu ∧
      (cpu_pmu_hw_init T v6_cpu_pmu_hw_init d).2.chip = some c0 ∧
      (cpu_pmu_hw_init T v6_cpu_pmu_hw_init d).2.armv7_pmu.cpu_name = some c0.cpu_name ∧
      (cpu_pmu_hw_init T v6_cpu_pmu_hw_init d).2.armv7_pmu.nr_cnt =
        (armv7_pmu_hw_get_counters d.regs).1 + 1 ∧
      (cpu_pmu_hw_init T v6_cpu_pmu_hw_init d).2.armv7_pmu.nr_cnt =
        (((d.regs.pmcr / 2 ^ 11) % 32 : Nat) : Int) + 1 ∧
      (cpu_pmu_hw_init T v6_cpu_pmu_hw_init d).2.v6_calls = d.v6_calls) ∧
    (∀ d2 : driver, d2.chip ≠ none →
      (cpu_pmu_hw_init T v6_cpu_pmu_hw_init d2).2.chip ≠ none) ∧
    (∀ d0 : driver, d0.chip = none →
      (∀ c ∈ chips T, c.type ≠ (armv7_get_ic d0.regs).1) →
      v6_cpu_pmu_hw_init (armv7_get_ic d0.regs).1 = cpu_pmu_hw_ptr.NULL →
      d0.regs.pmcr < 2 ^ 32 →
      (cpu_pmu_hw_init T v6_cpu_pmu_hw_init d0).1 = cpu_pmu_hw_ptr.NULL ∧
      (cpu_pmu_hw_init T v6_cpu_pmu_hw_init
        (cpu_pmu_hw_init T v6_cpu_pmu_hw_init d0).2).1 = cpu_pmu_hw_ptr.armv7_pmu ∧
      (cpu_pmu_hw_init T v6_cpu_pmu_hw_init
        (cpu_pmu_hw_init T v6_cpu_pmu_hw_init d0).2).2.armv7_pmu.cpu_name =
          some "Unknown CPU" ∧
      (cpu_pmu_hw_init T v6_cpu_pmu_hw_init
        (cpu_pmu_hw_init T v6_cpu_pmu_hw_init d0).2).2.armv7_pmu.nr_cnt =
          (((d0.regs.pmcr / 2 ^ 11) % 32 : Nat) : Int) + 1 ∧
      (cpu_pmu_hw_init T v6_cpu_pmu_hw_init
        (cpu_pmu_hw_init T v6_cpu_pmu_hw_init d0).2).2.v6_calls =
          (cpu_pmu_hw_init T v6_cpu_pmu_hw_init d0).2.v6_calls) := by
  have hkeep : ∀ (d1 : driver) (c1 : chip_pmu), d1.chip = some c1 →
      (∀ c ∈ chips T, c.type ≠ (armv7_get_ic d1.regs).1) → d1.regs.pmcr < 2 ^ 32 →
      (cpu_pmu_hw_init T v6_cpu_pmu_hw_init d1).1 = cpu_pmu_hw_ptr.armv7_pmu ∧
      (cpu_pmu_hw_init T v6_cpu_pmu_hw_init d1).2.chip = some c1 ∧
      (cpu_pmu_hw_init T v6_cpu_pmu_hw_init d1).2.armv7_pmu.cpu_name = some c1.cpu_name ∧
      (cpu_pmu_hw_init T v6_cpu_pmu_hw_init d1).2.armv7_pmu.nr_cnt =
        (armv7_pmu_hw_get_counters d1.regs).1 + 1 ∧
      (cpu_pmu_hw_init T v6_cpu_pmu_hw_init d1).2.armv7_pmu.nr_cnt =
        (((d1.regs.pmcr / 2 ^ 11) % 32 : Nat) : Int) + 1 ∧
      (cpu_pmu_hw_init T v6_cpu_pmu_hw_init d1).2.v6_calls = d1.v6_calls := by
    intro d1 c1 h1 hno1 hp1
    have hloop := (init_loop_of_no_match (armv7_get_ic d1.regs).1 d1.chip (chips T) hno1).trans h1
    obtain ⟨a1, a2, a3, a4, _, a6⟩ := init_of_bound T v6_cpu_pmu_hw_init d1 c1 hloop
    have hval : (armv7_pmu_hw_get_counters d1.regs).1 =
        (((d1.regs.pmcr / 2 ^ 11) % 32 : Nat) : Int) := by
      show (to_int32 d1.regs.pmcr >>> ARMV7_PMCR_N_SHIFT) % ((ARMV7_PMCR_N_MASK : Int) + 1) = _
      rw [Int.shiftRight_eq_div_pow]
      unfold to_int32 ARMV7_PMCR_N_SHIFT ARMV7_PMCR_N_MASK
      rw [Nat.mod_eq_of_lt hp1]
      norm_num at hp1 ⊢
      split <;> omega
    exact ⟨a1, a2, a3, a4, by rw [a4, hval], a6⟩
  refine ⟨hkeep d c0 hset hno hpmcr, ?_, ?_⟩
  · intro d2 hd2
    obtain ⟨c2, hc2⟩ := Option.ne_none_iff_exists'.1 hd2
    obtain ⟨c3, hc3⟩ := init_loop_some (armv7_get_ic d2.regs).1 c2 (chips T)
    rw [← hc2] at hc3
    obtain ⟨_, a2, _⟩ := init_of_bound T v6_cpu_pmu_hw_init d2 c3 hc3
    rw [a2]; exact Option.some_ne_none _
  · intro d0 hfresh hno0 hnull hp0
    have hloop := (init_loop_of_no_match (armv7_get_ic d0.regs).1 d0.chip (chips T) hno0).trans
      hfresh
    obtain ⟨b1, b2, _, _⟩ := init_of_unbound T v6_cpu_pmu_hw_init d0 hloop
    rw [hnull] at b1
    rw [if_pos hnull] at b2
    have hic : (armv7_get_ic (cpu_pmu_hw_init T v6_cpu_pmu_hw_init d0).2.regs).1 =
        (armv7_get_ic d0.regs).1 := by
      show ((cpu_pmu_hw_init T v6_cpu_pmu_hw_init d0).2.regs.midr &&& 0xffff) >>> 4 = _
      rw [init_keeps_midr]
      rfl
    have hpm := init_keeps_pmcr T v6_cpu_pmu_hw_init d0
    obtain ⟨a1, _, a3, _, a4, a5⟩ :=
      hkeep (cpu_pmu_hw_init T v6_cpu_pmu_hw_init d0).2 chip_unknown b2
        (by rw [hic]; exact hno0) (by rw [hpm]; exact hp0)
    rw [hpm] at a4
    exact ⟨b1, a1, a3, a4, a5⟩

/-- Evaluation of C18 on the state a failed first call leaves, on hardware whose control
register reports 6 generic counters: the handle is returned with the name of
the sentinel and `nr_cnt = 7`. -/
theorem cpu_pmu_hw_init_keeps_binding_witness :
    sample_driver_rebound.chip = some chip_unknown ∧
    (∀ c ∈ chips sample_tables, c.type ≠ (armv7_get_ic sample_driver_rebound.regs).1) ∧
    sample_driver_rebound.regs.pmcr < 2 ^ 32 ∧
    (cpu_pmu_hw_init sample_tables (fun _ => cpu_pmu_hw_ptr.NULL)
      sample_driver_rebound).1 = cpu_pmu_hw_ptr.armv7_pmu ∧
    (cpu_pmu_hw_init sample_tables (fun _ => cpu_pmu_hw_ptr.NULL)
      sample_driver_rebound).2.armv7_pmu.cpu_name = some "Unknown CPU" ∧
    (cpu_pmu_hw_init sample_tables (fun _ => cpu_pmu_hw_ptr.NULL)
      sample_driver_rebound).2.armv7_pmu.nr_cnt = 7 :=
  ⟨rfl, by decide, by decide,
    (cpu_pmu_hw_init_keeps_binding sample_tables (fun _ => cpu_pmu_hw_ptr.NULL)
      sample_driver_rebound chip_unknown rfl (by decide) (by decide)).1.1,
    (cpu_pmu_hw_init_keeps_binding sample_tables (fun _ => cpu_pmu_hw_ptr.NULL)
      sample_driver_rebound chip_unknown rfl (by decide) (by decide)).1.2.2.1,
    (cpu_pmu_hw_init_keeps_binding sample_tables (fun _ => cpu_pmu_hw_ptr.NULL)
      sample_driver_rebound chip_unknown rfl (by decide) (by decide)).1.2.2.2.1⟩

end V7Pmu
